import Mathlib

/-!
Shallow embedding of the transcript-rag core (SRT parsing, entry
normalization, chunk aggregation, rank fusion, reranking, neighbor
expansion, lesson suggestion) together with theorems settling the frozen
claims about it.

Numbers that the TypeScript source holds in IEEE doubles are modelled as
exact rationals; strings are Lean strings over their character lists.
-/

/-! ## JavaScript string primitives used by the source -/

/-- The ASCII characters of the JavaScript whitespace class to which every
string this program feeds to trimming or splitting is restricted. -/
def jsIsWs (c : Char) : Bool :=
  c = ' ' || c = '\t' || c = '\n' || c = '\r' || c = '\x0b' || c = '\x0c'

/-- Trim of a JavaScript string: whitespace dropped from both ends. -/
def jsTrim (s : String) : String :=
  ((s.data.dropWhile jsIsWs).reverse.dropWhile jsIsWs).reverse.asString

/-- Value of a nonempty run of decimal digits. -/
def digitsVal (cs : List Char) : ℚ :=
  cs.foldl (fun acc c => 10 * acc + ((c.toNat - 48 : ℕ) : ℚ)) 0

/-- Exponent suffix of a JavaScript decimal literal: empty, or
`[eE][+-]?digits` consuming the whole rest. `none` is NaN. -/
def parseExpPart (cs : List Char) (base : ℚ) : Option ℚ :=
  match cs with
  | [] => some base
  | e :: r =>
    if e = 'e' || e = 'E' then
      let (neg, r2) : Bool × List Char :=
        match r with
        | '-' :: t => (true, t)
        | '+' :: t => (false, t)
        | t => (false, t)
      if r2.isEmpty || !(r2.all (·.isDigit)) then none
      else
        let n : ℕ := (digitsVal r2).num.toNat
        some (if neg then base / 10 ^ n else base * 10 ^ n)
    else none

/-- Unsigned JavaScript decimal: `digits[.digits][exp]` or `.digits[exp]`,
consuming the whole input. `none` is NaN. -/
def parseDecimalPart (cs : List Char) : Option ℚ :=
  let ip := cs.takeWhile (·.isDigit)
  let r1 := cs.drop ip.length
  match r1 with
  | '.' :: r2 =>
    let fp := r2.takeWhile (·.isDigit)
    let r3 := r2.drop fp.length
    if ip.isEmpty && fp.isEmpty then none
    else parseExpPart r3 (digitsVal ip + digitsVal fp / (10 : ℚ) ^ fp.length)
  | _ => if ip.isEmpty then none else parseExpPart r1 (digitsVal ip)

/-- Number(string) of JavaScript on the decimal strings this program feeds
it: surrounding whitespace is ignored, the empty string is 0, an optional
sign precedes a decimal literal; anything else (the source never produces
hex, binary or Infinity strings) is NaN, modelled as `none`. -/
def jsNumber (s : String) : Option ℚ :=
  let t := ((s.data.dropWhile jsIsWs).reverse.dropWhile jsIsWs).reverse
  if t.isEmpty then some 0
  else
    match t with
    | '-' :: r => (parseDecimalPart r).map (fun q => -q)
    | '+' :: r => parseDecimalPart r
    | r => parseDecimalPart r

/-! ## Subtitle parsing (srt module)

Embeds `parseSrt`, `normalizeTimestamp`, `timestampToSeconds` and the
timecode regular expression of the source. -/

structure SrtEntry where
  start : String
  «end» : String
  startSeconds : ℚ
  endSeconds : ℚ
  text : String
deriving DecidableEq, Inhabited

structure ChunkEntry where
  chunkIndex : ℕ
  start : String
  «end» : String
  startSeconds : ℚ
  endSeconds : ℚ
  text : String
deriving DecidableEq, Inhabited

/-- Match of `\d{2}:\d{2}:\d{2},\d{3}` at the head of the characters:
the twelve matched characters and the remainder. -/
def matchTimestamp : List Char → Option (List Char × List Char)
  | d1 :: d2 :: ':' :: d3 :: d4 :: ':' :: d5 :: d6 :: ',' :: d7 :: d8 :: d9 :: rest =>
    if d1.isDigit && d2.isDigit && d3.isDigit && d4.isDigit && d5.isDigit &&
        d6.isDigit && d7.isDigit && d8.isDigit && d9.isDigit then
      some ([d1, d2, ':', d3, d4, ':', d5, d6, ',', d7, d8, d9], rest)
    else none
  | _ => none

/-- Match of the source's TIMECODE_REGEX
`(?<start>\d{2}:\d{2}:\d{2},\d{3})\s*-->\s*(?<end>\d{2}:\d{2}:\d{2},\d{3})`
anchored at the head: the two captured groups. -/
def matchTimecodeHere (cs : List Char) : Option (String × String) :=
  match matchTimestamp cs with
  | none => none
  | some (rawStart, r1) =>
    match r1.dropWhile jsIsWs with
    | '-' :: '-' :: '>' :: r2 =>
      match matchTimestamp (r2.dropWhile jsIsWs) with
      | none => none
      | some (rawEnd, _) => some (rawStart.asString, rawEnd.asString)
    | _ => none

/-- Leftmost match of TIMECODE_REGEX in the characters, as
`String.prototype.match` finds it. -/
def timecodeSearch : List Char → Option (String × String)
  | [] => none
  | c :: rest =>
    match matchTimecodeHere (c :: rest) with
    | some r => some r
    | none => timecodeSearch rest

/-- `line.match(TIMECODE_REGEX)` of the source, keeping the two groups. -/
def timecodeMatch (s : String) : Option (String × String) :=
  timecodeSearch s.data

/-- Replacement of the first occurrence of a character, as
`String.prototype.replace` with a plain-string pattern does it. -/
def replaceFirstChar : List Char → Char → Char → List Char
  | [], _, _ => []
  | c :: r, a, b => if c = a then b :: r else c :: replaceFirstChar r a b

/-- normalizeTimestamp of the source: `"00:01:02,345"` becomes
`"00:01:02"` (comma turned into a dot, then everything before the first
dot). -/
def normalizeTimestamp (raw : String) : String :=
  (((replaceFirstChar raw.data ',' '.').asString).splitOn ".").headD ""

/-- timestampToSeconds of the source. The raw string is split into
hours, minutes and a seconds field, the seconds field on its dot; each
part goes through Number. For the twelve-character strings produced by
the timecode match every part is a digit run, so the Number.isFinite
fallback to 0 never fires there; a string the source could never feed it
(fewer than three colon fields makes the source throw) yields 0 here. -/
def timestampToSeconds (raw : String) : ℚ :=
  let cleaned := (replaceFirstChar raw.data ',' '.').asString
  match cleaned.splitOn ":" with
  | hours :: minutes :: rest :: _ =>
    match rest.splitOn "." with
    | seconds :: restParts =>
      let millis : Option ℚ :=
        match restParts.head? with
        | some m => jsNumber m
        | none => some 0
      match jsNumber hours, jsNumber minutes, jsNumber seconds, millis with
      | some h, some m, some s, some ms => h * 3600 + m * 60 + s + ms / 1000
      | _, _, _, _ => 0
    | [] => 0
  | _ => 0

/-- Split on `/\r?\n/` as the source splits a block into lines. -/
def splitLinesAux : List Char → List Char → List (List Char)
  | acc, [] => [acc.reverse]
  | acc, '\r' :: '\n' :: rest => acc.reverse :: splitLinesAux [] rest
  | acc, '\n' :: rest => acc.reverse :: splitLinesAux [] rest
  | acc, c :: rest => splitLinesAux (c :: acc) rest

/-- Split on `/\r?\n\r?\n/` as the source splits content into blocks. -/
def splitBlocksAux : List Char → List Char → List (List Char)
  | acc, [] => [acc.reverse]
  | acc, '\r' :: '\n' :: '\r' :: '\n' :: rest => acc.reverse :: splitBlocksAux [] rest
  | acc, '\r' :: '\n' :: '\n' :: rest => acc.reverse :: splitBlocksAux [] rest
  | acc, '\n' :: '\r' :: '\n' :: rest => acc.reverse :: splitBlocksAux [] rest
  | acc, '\n' :: '\n' :: rest => acc.reverse :: splitBlocksAux [] rest
  | acc, c :: rest => splitBlocksAux (c :: acc) rest

/-- content.split(/\r?\n\r?\n/) of the source. -/
def jsSplitBlocks (content : String) : List String :=
  (splitBlocksAux [] content.data).map List.asString

/-- block.split(/\r?\n/).filter(Boolean) of the source. -/
def blockLines (block : String) : List String :=
  ((splitLinesAux [] block.data).map List.asString).filter (fun l => l ≠ "")

/-- Body of the source's per-block loop in parseSrt. The source computes
`lines.slice(match === lines[0] ? 1 : 2)`: `match` is a match array, never
equal (`===`) to the string `lines[0]`, so the slice always starts at 2. -/
def parseBlock (block : String) : Option SrtEntry :=
  let lines := blockLines block
  if lines.length < 2 then none
  else
    let l0 := lines.headD ""
    let l1 := (lines.drop 1).headD ""
    let timeLine := if (timecodeMatch l0).isSome then l0 else l1
    match timecodeMatch timeLine with
    | none => none
    | some (rawStart, rawEnd) =>
      let textLines := lines.drop 2
      let text := jsTrim (String.intercalate " " textLines)
      if text = "" then none
      else
        some { start := normalizeTimestamp rawStart,
               «end» := normalizeTimestamp rawEnd,
               startSeconds := timestampToSeconds rawStart,
               endSeconds := timestampToSeconds rawEnd,
               text := text }

/-- parseSrt of the source: blocks are processed independently and the
successful ones appended in order. -/
def parseSrt (content : String) : List SrtEntry :=
  (jsSplitBlocks content).filterMap parseBlock

/-! ## Entry normalization (srt module)

Embeds `stripBracketedCues`, `stripSpeakerPrefix`, `normalizeText` and
`normalizeEntries` of the source. -/

/-- Scan of `text.replace(/\[[^\]]+?\]/g, " ")`: each bracketed run with a
nonempty body and a closing bracket becomes one space; an unmatched or
empty pair stays, and scanning continues one character on. -/
def stripCuesAux : List Char → List Char
  | [] => []
  | '[' :: rest =>
    let inner := rest.takeWhile (fun c => c ≠ ']')
    if inner.isEmpty then '[' :: stripCuesAux rest
    else if inner.length < rest.length then
      ' ' :: stripCuesAux (rest.drop (inner.length + 1))
    else '[' :: stripCuesAux rest
  | c :: rest => c :: stripCuesAux rest
termination_by cs => cs.length
decreasing_by all_goals (simp only [List.length_drop, List.length_cons]; omega)

def stripBracketedCues (text : String) : String :=
  (stripCuesAux text.data).asString

/-- Character class `[A-Za-z0-9_ -]` of the speaker-label pattern. -/
def speakerClass (c : Char) : Bool :=
  c.isAlpha || c.isDigit || c = '_' || c = ' ' || c = '-'

/-- text.replace(/^\s*(>>\s*|[A-Za-z][A-Za-z0-9_ -]{0,30}:\s+)/, "") of the
source. After the leading whitespace either a chevron marker or a
letter-led label of at most 31 characters ending in a colon and at least
one whitespace is removed; when neither alternative matches, the string
is returned unchanged (the leading whitespace included). -/
def stripSpeakerPrefix (s : String) : String :=
  let rest := s.data.dropWhile jsIsWs
  match rest with
  | '>' :: '>' :: r => ((r.dropWhile jsIsWs).asString)
  | c :: r =>
    if c.isAlpha then
      let run := r.takeWhile speakerClass
      if run.length ≤ 30 then
        match r.drop run.length with
        | ':' :: t =>
          match t with
          | w :: _ => if jsIsWs w then (t.dropWhile jsIsWs).asString else s
          | [] => s
        | _ => s
      else s
    else s
  | [] => s

/-- Scan of `.replace(/\s+/g, " ")`: every maximal whitespace run becomes
one space. The flag records whether the previous character was part of a
run already replaced. -/
def collapseWsAux : List Char → Bool → List Char
  | [], _ => []
  | c :: r, prev =>
    if jsIsWs c then
      if prev then collapseWsAux r true else ' ' :: collapseWsAux r true
    else c :: collapseWsAux r false

/-- normalizeText of the source. -/
def normalizeText (text : String) : String :=
  let cleaned := stripSpeakerPrefix (stripBracketedCues text)
  jsTrim (collapseWsAux cleaned.data false).asString

/-- String.prototype.toLowerCase on the ASCII range the transcripts use. -/
def jsToLower (s : String) : String :=
  (s.data.map Char.toLower).asString

/-- Loop of normalizeEntries of the source: `lastText` starts as the empty
string and holds the lower-cased text of the last kept entry. -/
def normalizeEntriesGo : List SrtEntry → String → List SrtEntry
  | [], _ => []
  | e :: rest, lastText =>
    let cleaned := normalizeText e.text
    if cleaned = "" then normalizeEntriesGo rest lastText
    else if jsToLower cleaned = lastText then normalizeEntriesGo rest lastText
    else { e with text := cleaned } :: normalizeEntriesGo rest (jsToLower cleaned)

def normalizeEntries (entries : List SrtEntry) : List SrtEntry :=
  normalizeEntriesGo entries ""

/-- The spec's wording of the same filter, for comparison with the
source's `normalizeEntries`: drop an entry whose normalized text is
empty, and drop it when its case-folded normalized text equals that of
the immediately preceding kept entry, of which there is none initially. -/
def normalizeEntriesSpecGo : List SrtEntry → Option String → List SrtEntry
  | [], _ => []
  | e :: rest, prevKept =>
    let cleaned := normalizeText e.text
    if cleaned = "" then normalizeEntriesSpecGo rest prevKept
    else if some (jsToLower cleaned) = prevKept then normalizeEntriesSpecGo rest prevKept
    else { e with text := cleaned } :: normalizeEntriesSpecGo rest (some (jsToLower cleaned))

def normalizeEntriesSpec (entries : List SrtEntry) : List SrtEntry :=
  normalizeEntriesSpecGo entries none

/-! ## Chunk aggregation (srt module)

Embeds `aggregateEntries` of the source. The source's parameter defaults
are `windowSeconds = 45` and `overlapSeconds = 10`; here both are always
passed explicitly. -/

/-- Inner while loop of aggregateEntries, recursing on the count of
entries not yet behind the index (the loop leaves the list before that
count runs out, so the extra fuel case is never the answer). -/
def extendEndF (entries : List SrtEntry) (windowStart windowSeconds : ℚ) :
    ℕ → ℕ → ℕ
  | 0, i => i
  | fuel + 1, i =>
    if h : i < entries.length then
      if (entries.get ⟨i, h⟩).endSeconds - windowStart ≤ windowSeconds then
        extendEndF entries windowStart windowSeconds fuel (i + 1)
      else i
    else i

/-- Inner while loop of aggregateEntries: extend the end index while the
entry there ends within the window. -/
def extendEnd (entries : List SrtEntry) (windowStart windowSeconds : ℚ) (i : ℕ) : ℕ :=
  extendEndF entries windowStart windowSeconds (entries.length - i) i

/-- Cursor-advance while loop of aggregateEntries, with the same
structural counter as `extendEndF`. -/
def advanceNextF (entries : List SrtEntry) (overlapStart : ℚ) : ℕ → ℕ → ℕ
  | 0, i => i
  | fuel + 1, i =>
    if h : i < entries.length then
      if (entries.get ⟨i, h⟩).startSeconds < overlapStart then
        advanceNextF entries overlapStart fuel (i + 1)
      else i
    else i

/-- Cursor-advance while loop of aggregateEntries: skip entries starting
before the overlap point. -/
def advanceNext (entries : List SrtEntry) (overlapStart : ℚ) (i : ℕ) : ℕ :=
  advanceNextF entries overlapStart (entries.length - i) i

/-- entries[startIndex].startSeconds, read under the outer loop's guard. -/
def windowStartAt (entries : List SrtEntry) (s : ℕ) : ℚ :=
  (entries.getD s default).startSeconds

/-- entries.slice(startIndex, endIndex) of one outer-loop iteration,
after the zero-entry case forced endIndex to min(startIndex + 1, length). -/
def sliceAt (entries : List SrtEntry) (windowSeconds : ℚ) (s : ℕ) : List SrtEntry :=
  let ws := windowStartAt entries s
  let e := extendEnd entries ws windowSeconds s
  let e2 := if e = s then min (s + 1) entries.length else e
  (entries.drop s).take (e2 - s)

/-- The next startIndex of one outer-loop iteration: advance past entries
starting before `lastIncluded.endSeconds - overlapSeconds`, starting from
startIndex + 1; the final guard against non-progress is kept although the
advance never goes backwards. -/
def nextCursorAt (entries : List SrtEntry) (windowSeconds overlapSeconds : ℚ) (s : ℕ) : ℕ :=
  let slice := sliceAt entries windowSeconds s
  let overlapStart := (slice.getLastD default).endSeconds - overlapSeconds
  let n := advanceNext entries overlapStart (s + 1)
  if n ≤ s then s + 1 else n

theorem le_advanceNextF (entries : List SrtEntry) (ov : ℚ) :
    ∀ fuel i, i ≤ advanceNextF entries ov fuel i := by
  intro fuel
  induction fuel with
  | zero => intro i; exact le_refl i
  | succ fuel ih =>
    intro i
    unfold advanceNextF
    split
    · split
      · exact le_trans (Nat.le_succ i) (ih (i + 1))
      · exact le_refl i
    · exact le_refl i

theorem le_advanceNext (entries : List SrtEntry) (ov : ℚ) (i : ℕ) :
    i ≤ advanceNext entries ov i :=
  le_advanceNextF entries ov _ i

theorem lt_nextCursorAt (entries : List SrtEntry) (windowSeconds overlapSeconds : ℚ)
    (s : ℕ) : s < nextCursorAt entries windowSeconds overlapSeconds s := by
  simp only [nextCursorAt]
  have := le_advanceNext entries
    (((sliceAt entries windowSeconds s).getLastD default).endSeconds - overlapSeconds)
    (s + 1)
  split <;> omega

/-- Outer while loop of aggregateEntries: `s` is startIndex, `ci` the
running chunkIndex, incremented only when the joined text is nonempty. -/
def aggLoop (entries : List SrtEntry) (windowSeconds overlapSeconds : ℚ)
    (s ci : ℕ) : List ChunkEntry :=
  if _h : s < entries.length then
    let slice := sliceAt entries windowSeconds s
    let text := jsTrim (String.intercalate " " (slice.map (fun e => e.text)))
    if text = "" then
      aggLoop entries windowSeconds overlapSeconds
        (nextCursorAt entries windowSeconds overlapSeconds s) ci
    else
      { chunkIndex := ci,
        start := (slice.headD default).start,
        «end» := (slice.getLastD default).«end»,
        startSeconds := (slice.headD default).startSeconds,
        endSeconds := (slice.getLastD default).endSeconds,
        text := text } ::
      aggLoop entries windowSeconds overlapSeconds
        (nextCursorAt entries windowSeconds overlapSeconds s) (ci + 1)
  else []
termination_by entries.length - s
decreasing_by
  all_goals
    have := lt_nextCursorAt entries windowSeconds overlapSeconds s
    omega

/-- aggregateEntries of the source (window and overlap passed explicitly;
the source defaults them to 45 and 10). -/
def aggregateEntries (entries : List SrtEntry) (windowSeconds overlapSeconds : ℚ) :
    List ChunkEntry :=
  if entries.isEmpty then [] else aggLoop entries windowSeconds overlapSeconds 0 0

/-- The outer loop again, paid for with explicit fuel: one unit per
iteration, `none` when the fuel runs out with the cursor still inside the
entry list. Used to state that the loop terminates within
`entries.length` iterations. -/
def aggLoopFuel (entries : List SrtEntry) (windowSeconds overlapSeconds : ℚ) :
    ℕ → ℕ → ℕ → Option (List ChunkEntry)
  | 0, s, _ => if s < entries.length then none else some []
  | fuel + 1, s, ci =>
    if s < entries.length then
      let slice := sliceAt entries windowSeconds s
      let text := jsTrim (String.intercalate " " (slice.map (fun e => e.text)))
      if text = "" then
        aggLoopFuel entries windowSeconds overlapSeconds fuel
          (nextCursorAt entries windowSeconds overlapSeconds s) ci
      else
        (aggLoopFuel entries windowSeconds overlapSeconds fuel
          (nextCursorAt entries windowSeconds overlapSeconds s) (ci + 1)).map
          (fun rest =>
            { chunkIndex := ci,
              start := (slice.headD default).start,
              «end» := (slice.getLastD default).«end»,
              startSeconds := (slice.headD default).startSeconds,
              endSeconds := (slice.getLastD default).endSeconds,
              text := text } :: rest)
    else some []

/-! ## A stable insertion sort

Array.prototype.sort is stable and, for the consistent comparators this
source passes it, produces the list ordered by the comparator with tied
elements kept in input order; this insertion sort does exactly that for a
boolean relation `le` where `le a b` says a may stay before b. -/

def insertLe {α : Type} (le : α → α → Bool) (x : α) : List α → List α
  | [] => [x]
  | y :: ys => if le y x then y :: insertLe le x ys else x :: y :: ys

def sortLe {α : Type} (le : α → α → Bool) (l : List α) : List α :=
  l.foldl (fun acc x => insertLe le x acc) []

/-! ## The db module's records and index fetch

Embeds `ChunkRecord`/`RetrievedChunk` and `getChunksByLessonAndIndexes`
of the db module. The module's SQLite state is passed explicitly: the
`chunks` table is a list of rows with the schema's columns. -/

/-- One row of the `chunks` table the db module creates: id, lesson_name,
chunk_index, start_time, end_time, start_seconds, end_seconds, text. -/
structure ChunkRow where
  id : ℕ
  lesson_name : String
  chunk_index : ℤ
  start_time : String
  end_time : String
  start_seconds : ℚ
  end_seconds : ℚ
  text : String
deriving DecidableEq, Inhabited

/-- RetrievedChunk of the db module: the ChunkRecord fields plus the row
id and the optional vector distance and bm25 score of the two search
queries (absent on an index fetch). -/
structure RetrievedChunk where
  lessonName : String
  chunkIndex : ℤ
  startTime : String
  endTime : String
  startSeconds : ℚ
  endSeconds : ℚ
  text : String
  id : ℕ
  distance : Option ℚ
  bm25 : Option ℚ
deriving DecidableEq, Inhabited

/-- The SELECT column list of getChunksByLessonAndIndexes: every chunks
column aliased onto the RetrievedChunk fields, no distance and no bm25. -/
def ChunkRow.toRetrieved (r : ChunkRow) : RetrievedChunk :=
  { lessonName := r.lesson_name,
    chunkIndex := r.chunk_index,
    startTime := r.start_time,
    endTime := r.end_time,
    startSeconds := r.start_seconds,
    endSeconds := r.end_seconds,
    text := r.text,
    id := r.id,
    distance := none,
    bm25 := none }

/-- getChunksByLessonAndIndexes of the db module, over the explicit
chunks table: an empty index list returns nothing before querying;
otherwise the rows of the lesson whose chunk_index is among the
requested indexes, ordered by chunk_index (SQLite leaves equal keys in
an unspecified order; the model keeps table order). -/
def getChunksByLessonAndIndexes (table : List ChunkRow) (lessonName : String)
    (indexes : List ℤ) : List RetrievedChunk :=
  if indexes.length = 0 then []
  else
    (sortLe (fun a b : ChunkRow => decide (a.chunk_index ≤ b.chunk_index))
      (table.filter (fun r => decide (r.lesson_name = lessonName ∧
        r.chunk_index ∈ indexes)))).map ChunkRow.toRetrieved

/-- Sample retrieved chunks for the concrete instantiations below. -/
def sampleA : RetrievedChunk :=
  ⟨"la", 0, "00:00:00", "00:00:10", 0, 10, "ta", 1, none, none⟩

def sampleB : RetrievedChunk :=
  ⟨"lb", 1, "00:00:10", "00:00:20", 10, 20, "tb", 2, none, none⟩

def sampleC : RetrievedChunk :=
  ⟨"lc", 2, "00:00:20", "00:00:30", 20, 30, "tc", 3, none, none⟩

/-! ## Retrieval and rank fusion (search module) -/

/-- RRF_K of the source. -/
def RRF_K : ℚ := 60

/-- One `scores.set` / `existing.score +=` step of rrfCombine: the
JavaScript Map keeps insertion order, updates in place and appends new
keys at the end. -/
def mapAdd : List (ℕ × ℚ × RetrievedChunk) → ℕ → ℚ → RetrievedChunk →
    List (ℕ × ℚ × RetrievedChunk)
  | [], k, d, c => [(k, d, c)]
  | (k0, s0, c0) :: rest, k, d, c =>
    if k0 = k then (k0, s0 + d, c0) :: rest
    else (k0, s0, c0) :: mapAdd rest k d c

/-- addList of rrfCombine: each chunk contributes 1 / (RRF_K + rank) at
its 1-based rank in the list. -/
def addList (m : List (ℕ × ℚ × RetrievedChunk)) (list : List RetrievedChunk) :
    List (ℕ × ℚ × RetrievedChunk) :=
  list.enum.foldl
    (fun acc p => mapAdd acc p.2.id (1 / (RRF_K + ((p.1 : ℚ) + 1))) p.2) m

/-- The `scores` map of rrfCombine after both lists are added, in
insertion (first-seen) order. -/
def rrfScores (vectorMatches bm25Matches : List RetrievedChunk) :
    List (ℕ × ℚ × RetrievedChunk) :=
  addList (addList [] vectorMatches) bm25Matches

/-- Comparator `(a, b) => b.score - a.score` of rrfCombine: a may stay
before b when b's score is at most a's. -/
def scoreDescLe (a b : ℕ × ℚ × RetrievedChunk) : Bool :=
  decide (b.2.1 ≤ a.2.1)

/-- rrfCombine of the source. -/
def rrfCombine (vectorMatches bm25Matches : List RetrievedChunk) :
    List RetrievedChunk :=
  (sortLe scoreDescLe (rrfScores vectorMatches bm25Matches)).map (fun e => e.2.2)

/-! ## Reranking (search module)

The inference call of rerankChunks is external; its outcome (a thrown
error, or the response text) is a parameter. The response post-processing
— the bracket match, JSON.parse, the Number coercion and the sort — is
embedded below. -/

inductive JsValue where
  | null : JsValue
  | bool : Bool → JsValue
  | num : ℚ → JsValue
  | str : String → JsValue
  | arr : List JsValue → JsValue
  | obj : List (String × JsValue) → JsValue

/-- Whitespace of the JSON grammar. -/
def jsonWs (c : Char) : Bool :=
  c = ' ' || c = '\t' || c = '\n' || c = '\r'

/-- A JSON number at the head of the characters: `-?int[.frac][exp]` with
the grammar's leading-zero and nonempty-part rules. -/
def parseJsonNumberAt (cs : List Char) : Option (JsValue × List Char) :=
  let signed : Bool × List Char :=
    match cs with
    | '-' :: t => (true, t)
    | t => (false, t)
  let ip := signed.2.takeWhile (fun c => c.isDigit)
  if ip.isEmpty then none
  else if 2 ≤ ip.length ∧ ip.headD '0' = '0' then none
  else
    let r1 := signed.2.drop ip.length
    let fracked : Bool × List Char × List Char :=
      match r1 with
      | '.' :: t => (true, t.takeWhile (fun c => c.isDigit),
                     t.drop (t.takeWhile (fun c => c.isDigit)).length)
      | _ => (false, [], r1)
    if fracked.1 ∧ fracked.2.1.isEmpty then none
    else
      let mag := digitsVal ip + digitsVal fracked.2.1 / (10 : ℚ) ^ fracked.2.1.length
      let expPart : Option (ℚ × List Char) :=
        match fracked.2.2 with
        | 'e' :: t | 'E' :: t =>
          let esigned : Bool × List Char :=
            match t with
            | '-' :: t2 => (true, t2)
            | '+' :: t2 => (false, t2)
            | t2 => (false, t2)
          let ed := esigned.2.takeWhile (fun c => c.isDigit)
          if ed.isEmpty then none
          else
            let n : ℕ := (digitsVal ed).num.toNat
            some (if esigned.1 then mag / 10 ^ n else mag * 10 ^ n,
                  esigned.2.drop ed.length)
        | t => some (mag, t)
      match expPart with
      | none => none
      | some (q, rest) => some (JsValue.num (if signed.1 then -q else q), rest)

mutual

/-- A JSON value at the head of the characters, by the grammar of
JSON.parse, with explicit fuel. -/
def parseJsonValue : ℕ → List Char → Option (JsValue × List Char)
  | 0, _ => none
  | fuel + 1, cs =>
    match cs.dropWhile jsonWs with
    | 'n' :: 'u' :: 'l' :: 'l' :: r => some (JsValue.null, r)
    | 't' :: 'r' :: 'u' :: 'e' :: r => some (JsValue.bool true, r)
    | 'f' :: 'a' :: 'l' :: 's' :: 'e' :: r => some (JsValue.bool false, r)
    | '"' :: r => (parseJsonStringBody fuel r).map (fun p => (JsValue.str p.1, p.2))
    | '[' :: r =>
      match r.dropWhile jsonWs with
      | ']' :: r2 => some (JsValue.arr [], r2)
      | r2 => (parseJsonElems fuel r2).map (fun p => (JsValue.arr p.1, p.2))
    | '{' :: r =>
      match r.dropWhile jsonWs with
      | '}' :: r2 => some (JsValue.obj [], r2)
      | r2 => (parseJsonMembers fuel r2).map (fun p => (JsValue.obj p.1, p.2))
    | r => parseJsonNumberAt r

/-- Comma-separated values up to the closing bracket. -/
def parseJsonElems : ℕ → List Char → Option (List JsValue × List Char)
  | 0, _ => none
  | fuel + 1, cs =>
    match parseJsonValue fuel cs with
    | none => none
    | some (v, r) =>
      match r.dropWhile jsonWs with
      | ',' :: r2 => (parseJsonElems fuel r2).map (fun p => (v :: p.1, p.2))
      | ']' :: r2 => some ([v], r2)
      | _ => none

/-- Comma-separated members up to the closing brace. -/
def parseJsonMembers : ℕ → List Char → Option (List (String × JsValue) × List Char)
  | 0, _ => none
  | fuel + 1, cs =>
    match cs.dropWhile jsonWs with
    | '"' :: r =>
      match parseJsonStringBody fuel r with
      | none => none
      | some (k, r1) =>
        match r1.dropWhile jsonWs with
        | ':' :: r2 =>
          match parseJsonValue fuel r2 with
          | none => none
          | some (v, r3) =>
            match r3.dropWhile jsonWs with
            | ',' :: r4 => (parseJsonMembers fuel r4).map (fun p => ((k, v) :: p.1, p.2))
            | '}' :: r4 => some ([(k, v)], r4)
            | _ => none
        | _ => none
    | _ => none

/-- Body of a JSON string after its opening quote, with the common
escapes (the `\u` form is not needed by any response this program reads
and is refused here as a malformed document). -/
def parseJsonStringBody : ℕ → List Char → Option (String × List Char)
  | 0, _ => none
  | fuel + 1, cs =>
    match cs with
    | [] => none
    | '"' :: r => some ("", r)
    | '\\' :: e :: r =>
      let esc : Option Char :=
        if e = '"' then some '"'
        else if e = '\\' then some '\\'
        else if e = '/' then some '/'
        else if e = 'n' then some '\n'
        else if e = 't' then some '\t'
        else if e = 'r' then some '\r'
        else if e = 'b' then some '\x08'
        else if e = 'f' then some '\x0c'
        else none
      match esc with
      | none => none
      | some c => (parseJsonStringBody fuel r).map (fun p => (String.mk (c :: p.1.data), p.2))
    | c :: r => (parseJsonStringBody fuel r).map (fun p => (String.mk (c :: p.1.data), p.2))

end

/-- JSON.parse of the source's catch-wrapped call: `none` is a thrown
SyntaxError. The fuel is ample for any input of this length. -/
def jsonParse (s : String) : Option JsValue :=
  match parseJsonValue (2 * s.length + 2) s.data with
  | none => none
  | some (v, rest) => if (rest.dropWhile jsonWs).isEmpty then some v else none

/-- text.match(/\[[\s\S]*\]/) of the source: a match exists when some `]`
follows the first `[`, and it runs from that first `[` to the last `]` of
the whole text (the star is greedy). -/
def bracketSlice (text : String) : Option String :=
  let cs := text.data
  match cs.findIdx? (fun c => c = '[') with
  | none => none
  | some i =>
    match cs.reverse.findIdx? (fun c => c = ']') with
    | none => none
    | some jr =>
      let j := cs.length - 1 - jr
      if i < j then some (((cs.drop i).take (j - i + 1)).asString) else none

/-- Number(value) on a parsed JSON value, as the source's score coercion
applies it; `none` is NaN. An array or object coerces through its string
form in JavaScript; no theorem reaches that case and it is NaN here. -/
def jsToNumber : JsValue → Option ℚ
  | JsValue.num q => some q
  | JsValue.bool b => some (if b then 1 else 0)
  | JsValue.null => some 0
  | JsValue.str s => jsNumber s
  | JsValue.arr _ => none
  | JsValue.obj _ => none

/-- Comparator of the rerank sort on (chunk, score, order) triples:
descending score, ties by ascending original order. -/
def rerankLe (a b : RetrievedChunk × ℚ × ℕ) : Bool :=
  decide (b.2.1 < a.2.1 ∨ (a.2.1 = b.2.1 ∧ a.2.2 ≤ b.2.2))

/-- rerankChunks of the source. The generateText call is external: its
outcome is either a thrown error or the response text. Everything after
it — the bracket match, JSON.parse, the Number-or-0 coercion, the length
test and the sort — follows the source line by line; the catch around
the whole body returns the input on a thrown parse. -/
def rerankChunks (outcome : Except Unit String) (chunks : List RetrievedChunk) :
    List RetrievedChunk :=
  if chunks.length = 0 then chunks
  else
    match outcome with
    | Except.error _ => chunks
    | Except.ok text =>
      match bracketSlice text with
      | none => chunks
      | some m =>
        match jsonParse m with
        | none => chunks
        | some (JsValue.arr parsed) =>
          let scores := parsed.map (fun v =>
            match jsToNumber v with
            | some q => q
            | none => 0)
          if scores.length < chunks.length then chunks
          else
            let scored := chunks.enum.map (fun p => (p.2, scores.getD p.1 0, p.1))
            (sortLe rerankLe scored).map (fun e => e.1)
        | some _ => chunks

/-! ## Neighbor expansion (search module)

getChunksByLessonAndIndexes reads the db module's SQLite state, so the
chunks table is threaded through expandNeighbors explicitly. -/

/-- uniqueById of the source; the `seen` set of ids is a list. -/
def uniqueByIdGo : List RetrievedChunk → List ℕ → List RetrievedChunk
  | [], _ => []
  | c :: rest, seen =>
    if c.id ∈ seen then uniqueByIdGo rest seen
    else c :: uniqueByIdGo rest (c.id :: seen)

def uniqueById (chunks : List RetrievedChunk) : List RetrievedChunk :=
  uniqueByIdGo chunks []

/-- Comparator of sortByLessonAndIndex: localeCompare on the lesson name
(modelled as the character order on strings), then the index difference. -/
def lessonIdxLe (a b : RetrievedChunk) : Bool :=
  decide (a.lessonName < b.lessonName ∨
    (a.lessonName = b.lessonName ∧ a.chunkIndex ≤ b.chunkIndex))

/-- sortByLessonAndIndex of the source. -/
def sortByLessonAndIndex (chunks : List RetrievedChunk) : List RetrievedChunk :=
  sortLe lessonIdxLe chunks

/-- Set.prototype.add: insertion order, no duplicates. -/
def setAdd (s : List ℤ) (x : ℤ) : List ℤ :=
  if x ∈ s then s else s ++ [x]

/-- The offsets `-window..window` without 0 that the collect loop walks. -/
def offsetsFor (window : ℕ) : List ℤ :=
  ((List.range (2 * window + 1)).map (fun j => (j : ℤ) - (window : ℤ))).filter
    (fun o => o ≠ 0)

/-- Inner offset loop of collectNeighborIndexes for one chunk: each
non-negative neighbor index joins the lesson's set. -/
def addNeighborsOf (s : List ℤ) (c : RetrievedChunk) (window : ℕ) : List ℤ :=
  (offsetsFor window).foldl
    (fun acc o => if 0 ≤ c.chunkIndex + o then setAdd acc (c.chunkIndex + o) else acc) s

/-- Map.prototype.has / get-or-empty / set on the lesson-to-indexes map,
in insertion order as the JavaScript Map keeps it. -/
def lessonMapHas (m : List (String × List ℤ)) (k : String) : Bool :=
  m.any (fun p => p.1 == k)

def lessonMapGet (m : List (String × List ℤ)) (k : String) : List ℤ :=
  ((m.find? (fun p => p.1 == k)).map (fun p => p.2)).getD []

def lessonMapSet (m : List (String × List ℤ)) (k : String) (v : List ℤ) :
    List (String × List ℤ) :=
  match m with
  | [] => [(k, v)]
  | (k0, v0) :: rest =>
    if k0 == k then (k0, v) :: rest else (k0, v0) :: lessonMapSet rest k v

/-- collectNeighborIndexes of the source. The window is a natural number;
the one call site passes NEIGHBOR_WINDOW = 1. -/
def collectNeighborIndexes (chunks : List RetrievedChunk) (window : ℕ) :
    List (String × List ℤ) :=
  chunks.foldl
    (fun m c =>
      let m1 := if lessonMapHas m c.lessonName then m else m ++ [(c.lessonName, [])]
      lessonMapSet m1 c.lessonName
        (addNeighborsOf (lessonMapGet m1 c.lessonName) c window)) []

/-- expandNeighbors of the source, over the explicit chunks table (a
nonpositive window reaches the same early return as 0 does here). -/
def expandNeighbors (table : List ChunkRow)
    (chunks : List RetrievedChunk) (window : ℕ) : List RetrievedChunk :=
  if window = 0 then chunks
  else if chunks.isEmpty then chunks
  else
    let neighborMap := collectNeighborIndexes chunks window
    let neighbors := (neighborMap.map
      (fun p => getChunksByLessonAndIndexes table p.1 p.2)).flatten
    sortByLessonAndIndex (uniqueById (chunks ++ neighbors))

/-! ## Lesson suggestion (cli module)

Embeds `levenshteinDistance`, `lessonSimilarity` and `suggestLessons`. -/

/-- One cell chain of the distance matrix's row `i`: walks the characters
of b with the previous row (diag is the cell up-left, left the cell just
written, `pj :: ps` the previous row from column j on). -/
def levRowAux : List Char → ℕ → ℕ → List ℕ → Char → List ℕ
  | [], _, _, _, _ => []
  | _ :: _, _, _, [], _ => []
  | bj :: bs, diag, left, pj :: ps, c =>
    let cost := if c.toLower = bj.toLower then 0 else 1
    let nj := min (min (left + 1) (pj + 1)) (diag + cost)
    nj :: levRowAux bs pj nj ps c

/-- levenshteinDistance of the source: the dynamic-programming matrix,
row by row, with the case-insensitive cost; row 0 is 0..bLen and each
row's first cell is its row number. -/
def levenshteinDistance (a b : String) : ℕ :=
  if a.length = 0 then b.length
  else if b.length = 0 then a.length
  else
    let row0 := List.range (b.length + 1)
    let finalRow := a.data.foldl
      (fun prev c =>
        let first := prev.headD 0 + 1
        first :: levRowAux b.data (prev.headD 0) first (prev.drop 1) c) row0
    finalRow.getLastD 0

/-- lessonSimilarity of the source. -/
def lessonSimilarity (a b : String) : ℚ :=
  let aLower := jsToLower a
  let bLower := jsToLower b
  if aLower = bLower then 1
  else if decide (bLower.data <:+: aLower.data) || decide (aLower.data <:+: bLower.data) then
    95 / 100
  else
    1 - (levenshteinDistance aLower bLower : ℚ) /
      ((max aLower.length bLower.length : ℕ) : ℚ)

/-- suggestLessons of the source: score, keep the positives, sort
descending (stable), take five, return the names. -/
def suggestLessons (input : String) (available : List String) : List String :=
  (((sortLe (fun p q : String × ℚ => decide (q.2 ≤ p.2))
      ((available.map (fun name => (name, lessonSimilarity input name))).filter
        (fun e => decide (0 < e.2)))).take 5).map (fun e => e.1))

/-! ## Properties of the stable insertion sort -/

theorem perm_insertLe {α : Type} (le : α → α → Bool) (x : α) (l : List α) :
    List.Perm (insertLe le x l) (x :: l) := by
  induction l with
  | nil => exact List.Perm.refl _
  | cons y ys ih =>
    unfold insertLe
    split
    · exact (ih.cons y).trans (List.Perm.swap x y ys)
    · exact List.Perm.refl _

theorem foldlInsert_perm {α : Type} (le : α → α → Bool) :
    ∀ (l acc : List α), List.Perm (l.foldl (fun a x => insertLe le x a) acc) (acc ++ l) := by
  intro l
  induction l with
  | nil => intro acc; simp
  | cons x xs ih =>
    intro acc
    simp only [List.foldl_cons]
    refine (ih (insertLe le x acc)).trans ?_
    refine (((perm_insertLe le x acc).append_right xs).trans ?_)
    exact (List.perm_middle).symm

theorem sortLe_perm {α : Type} (le : α → α → Bool) (l : List α) :
    List.Perm (sortLe le l) l := by
  simpa using foldlInsert_perm le l []

theorem pairwise_insertLe {α : Type} (le : α → α → Bool)
    (htot : ∀ a b, le a b = true ∨ le b a = true)
    (htrans : ∀ a b c, le a b = true → le b c = true → le a c = true)
    (x : α) (l : List α) (hl : l.Pairwise (fun a b => le a b = true)) :
    (insertLe le x l).Pairwise (fun a b => le a b = true) := by
  induction l with
  | nil => simp [insertLe]
  | cons y ys ih =>
    rw [List.pairwise_cons] at hl
    unfold insertLe
    split
    · rename_i hyx
      rw [List.pairwise_cons]
      refine ⟨?_, ih hl.2⟩
      intro z hz
      have hz2 : z ∈ x :: ys := (perm_insertLe le x ys).subset hz
      rcases List.mem_cons.mp hz2 with h | h
      · exact h ▸ hyx
      · exact hl.1 z h
    · rename_i hyx
      have hxy : le x y = true := by
        rcases htot x y with h | h
        · exact h
        · exact absurd h hyx
      rw [List.pairwise_cons]
      constructor
      · intro z hz
        rcases List.mem_cons.mp hz with h | h
        · exact h ▸ hxy
        · exact htrans x y z hxy (hl.1 z h)
      · exact List.pairwise_cons.mpr hl

theorem sortLe_pairwise {α : Type} (le : α → α → Bool)
    (htot : ∀ a b, le a b = true ∨ le b a = true)
    (htrans : ∀ a b c, le a b = true → le b c = true → le a c = true)
    (l : List α) : (sortLe le l).Pairwise (fun a b => le a b = true) := by
  have aux : ∀ (m acc : List α), acc.Pairwise (fun a b => le a b = true) →
      (m.foldl (fun a x => insertLe le x a) acc).Pairwise (fun a b => le a b = true) := by
    intro m
    induction m with
    | nil => intro acc h; simpa using h
    | cons x xs ih =>
      intro acc h
      simp only [List.foldl_cons]
      exact ih _ (pairwise_insertLe le htot htrans x acc h)
  exact aux l [] List.Pairwise.nil

theorem filter_insertLe {α : Type} (le : α → α → Bool)
    (htrans : ∀ a b c, le a b = true → le b c = true → le a c = true)
    (p : α → Bool) (hp : ∀ a b, p a = true → p b = true → le a b = true)
    (x : α) (l : List α) (hl : l.Pairwise (fun a b => le a b = true)) :
    (insertLe le x l).filter p =
      if p x then l.filter p ++ [x] else l.filter p := by
  induction l with
  | nil => simp only [insertLe, List.filter]; split <;> simp_all
  | cons y ys ih =>
    rw [List.pairwise_cons] at hl
    unfold insertLe
    split
    · rename_i hyx
      rw [List.filter_cons, List.filter_cons]
      have ihy := ih hl.2
      split
      · rw [ihy]
        split <;> simp
      · exact ihy
    · rename_i hyx
      by_cases hpx : p x = true
      · have hnone : (y :: ys).filter p = [] := by
          rw [List.filter_eq_nil_iff]
          intro z hz hpz
          rcases List.mem_cons.mp hz with h | h
          · exact hyx (hp y x (h ▸ hpz) hpx)
          · exact hyx (htrans y z x (hl.1 z h) (hp z x hpz hpx))
        rw [List.filter_cons_of_pos hpx, hnone]
        simp [hpx, hnone]
      · have hpx2 : p x = false := by simpa using hpx
        rw [List.filter_cons_of_neg (by simp [hpx2])]
        simp [hpx2]

theorem sortLe_filter {α : Type} (le : α → α → Bool)
    (htot : ∀ a b, le a b = true ∨ le b a = true)
    (htrans : ∀ a b c, le a b = true → le b c = true → le a c = true)
    (p : α → Bool) (hp : ∀ a b, p a = true → p b = true → le a b = true)
    (l : List α) : (sortLe le l).filter p = l.filter p := by
  have aux : ∀ (m acc : List α), acc.Pairwise (fun a b => le a b = true) →
      (m.foldl (fun a x => insertLe le x a) acc).filter p =
        acc.filter p ++ m.filter p := by
    intro m
    induction m with
    | nil => intro acc h; simp
    | cons x xs ih =>
      intro acc h
      simp only [List.foldl_cons]
      rw [ih _ (pairwise_insertLe le htot htrans x acc h),
        filter_insertLe le htrans p hp x acc h, List.filter_cons]
      by_cases hpx : p x = true
      · simp [hpx]
      · simp [hpx]
  simpa using aux l [] List.Pairwise.nil

/-! ## Claim C9: lesson suggestion -/

/-- C9: suggestLessons scores each available name by lessonSimilarity
(1 for a case-insensitive match, 0.95 for containment either way, else
1 − levenshtein/max-length with case-insensitive distance) and returns at
most five names, all of positive score, in descending score order; in
particular suggestLessons "Lesson1" ["lesson1", "lesson2"] ranks
"lesson1" first with score 1. -/
theorem suggestLessons_spec (input : String) (available : List String) :
    (suggestLessons input available).length ≤ 5 ∧
    (∀ name ∈ suggestLessons input available, 0 < lessonSimilarity input name) ∧
    (suggestLessons input available).Pairwise
      (fun a b => lessonSimilarity input b ≤ lessonSimilarity input a) ∧
    levenshteinDistance "Lesson1" "lesson1" = 0 ∧
    lessonSimilarity "Lesson1" "lesson1" = 1 ∧
    suggestLessons "Lesson1" ["lesson1", "lesson2"] = ["lesson1", "lesson2"] := by
  have htot : ∀ p q : String × ℚ, (fun p q : String × ℚ => decide (q.2 ≤ p.2)) p q = true ∨
      (fun p q : String × ℚ => decide (q.2 ≤ p.2)) q p = true := by
    intro p q
    simp only [decide_eq_true_eq]
    exact (le_total q.2 p.2)
  have htrans : ∀ a b c : String × ℚ,
      (fun p q : String × ℚ => decide (q.2 ≤ p.2)) a b = true →
      (fun p q : String × ℚ => decide (q.2 ≤ p.2)) b c = true →
      (fun p q : String × ℚ => decide (q.2 ≤ p.2)) a c = true := by
    intro a b c h1 h2
    simp only [decide_eq_true_eq] at h1 h2 ⊢
    exact le_trans h2 h1
  have hpairmem : ∀ p : String × ℚ,
      p ∈ (sortLe (fun p q : String × ℚ => decide (q.2 ≤ p.2))
        ((available.map (fun name => (name, lessonSimilarity input name))).filter
          (fun e => decide (0 < e.2)))).take 5 →
      0 < p.2 ∧ p.2 = lessonSimilarity input p.1 := by
    intro p hp
    have hp2 := List.mem_of_mem_take hp
    have hp3 := (sortLe_perm _ _).mem_iff.mp hp2
    have hp4 := List.mem_filter.mp hp3
    obtain ⟨n, _hn, hfn⟩ := List.mem_map.mp hp4.1
    have hpos : 0 < p.2 := by simpa using hp4.2
    refine ⟨hpos, ?_⟩
    rw [← hfn]
  refine ⟨?_, ?_, ?_, ?_, ?_, ?_⟩
  · simp only [suggestLessons, List.length_map]
    exact le_trans (List.length_take_le 5 _) (le_refl 5)
  · intro name hname
    obtain ⟨p, hp, hpeq⟩ := List.mem_map.mp hname
    obtain ⟨hpos, heq⟩ := hpairmem p hp
    rw [← hpeq, ← heq]
    exact hpos
  · have hsorted := sortLe_pairwise (fun p q : String × ℚ => decide (q.2 ≤ p.2))
      htot htrans
      ((available.map (fun name => (name, lessonSimilarity input name))).filter
        (fun e => decide (0 < e.2)))
    have htake := List.Pairwise.sublist (List.take_sublist 5 _) hsorted
    rw [suggestLessons, List.pairwise_map]
    refine List.Pairwise.imp_of_mem ?_ htake
    intro a b ha hb hab
    have hA := (hpairmem a ha).2
    have hB := (hpairmem b hb).2
    simp only [decide_eq_true_eq] at hab
    rw [← hA, ← hB]
    exact hab
  · with_unfolding_all decide
  · with_unfolding_all decide
  · with_unfolding_all decide

/-! ## Claim C1: parseSrt and the sequence-number-free block -/

/-- C1 (failing input): the source's `lines.slice(match === lines[0] ? 1 : 2)`
compares a match array with a string, so it always slices from 2. On the
block whose first line is the timecode (no sequence number) with text
lines "hello" and "world", parseSrt emits the text "world": the claimed
trimmed space-join "hello world" is lost. A block with a sequence-number
line, by contrast, keeps its full text. -/
theorem parseSrt_drops_first_text_line :
    parseSrt "00:00:01,000 --> 00:00:02,000\nhello\nworld" =
      [{ start := "00:00:01", «end» := "00:00:02", startSeconds := 1,
         endSeconds := 2, text := "world" }] ∧
    parseSrt "00:00:01,000 --> 00:00:02,000\nhello" = [] ∧
    parseSrt "1\n00:00:01,000 --> 00:00:02,000\nhello\nworld" =
      [{ start := "00:00:01", «end» := "00:00:02", startSeconds := 1,
         endSeconds := 2, text := "hello world" }] := by
  refine ⟨?_, ?_, ?_⟩ <;> with_unfolding_all decide

/-! ## Properties of the aggregation loops -/

theorem extendEndF_takeWhile (entries : List SrtEntry) (ws W : ℚ) :
    ∀ fuel i, entries.length - i ≤ fuel →
      extendEndF entries ws W fuel i =
        i + ((entries.drop i).takeWhile
          (fun e => decide (e.endSeconds - ws ≤ W))).length := by
  intro fuel
  induction fuel with
  | zero =>
    intro i hi
    have hlen : entries.length ≤ i := by omega
    rw [List.drop_eq_nil_of_le hlen]
    simp [extendEndF]
  | succ fuel ih =>
    intro i hi
    unfold extendEndF
    by_cases h : i < entries.length
    · rw [dif_pos h]
      have hdrop : entries.drop i = entries.get ⟨i, h⟩ :: entries.drop (i + 1) := by
        rw [List.drop_eq_getElem_cons h]
        rfl
      by_cases hc : (entries.get ⟨i, h⟩).endSeconds - ws ≤ W
      · rw [if_pos hc, ih (i + 1) (by omega), hdrop,
          List.takeWhile_cons_of_pos (by simpa using hc)]
        simp only [List.length_cons]
        omega
      · rw [if_neg hc, hdrop, List.takeWhile_cons_of_neg (by simpa using hc)]
        simp
    · rw [dif_neg h, List.drop_eq_nil_of_le (by omega)]
      simp
  
theorem extendEnd_takeWhile (entries : List SrtEntry) (ws W : ℚ) (i : ℕ) :
    extendEnd entries ws W i =
      i + ((entries.drop i).takeWhile
        (fun e => decide (e.endSeconds - ws ≤ W))).length :=
  extendEndF_takeWhile entries ws W (entries.length - i) i (le_refl _)

/-- The slice of one outer iteration is the longest prefix of the rest
that ends within the window, or the single cursor entry when that prefix
is empty. -/
theorem sliceAt_characterization (entries : List SrtEntry) (W : ℚ) (s : ℕ)
    (h : s < entries.length) :
    sliceAt entries W s =
      (if (entries.drop s).takeWhile
          (fun e => decide (e.endSeconds - windowStartAt entries s ≤ W)) = []
       then [entries.get ⟨s, h⟩]
       else (entries.drop s).takeWhile
          (fun e => decide (e.endSeconds - windowStartAt entries s ≤ W))) := by
  have hdrop : entries.drop s = entries.get ⟨s, h⟩ :: entries.drop (s + 1) := by
    rw [List.drop_eq_getElem_cons h]
    rfl
  simp only [sliceAt, extendEnd_takeWhile]
  set tw := (entries.drop s).takeWhile
    (fun e => decide (e.endSeconds - windowStartAt entries s ≤ W)) with htw
  by_cases hempty : tw = []
  · rw [if_pos hempty, hempty]
    simp only [List.length_nil, Nat.add_zero, eq_self_iff_true, if_true]
    have harith : min (s + 1) entries.length - s = 1 := by omega
    rw [harith, hdrop]
    rfl
  · rw [if_neg hempty]
    have hlenpos : 0 < tw.length := List.length_pos.mpr hempty
    rw [if_neg (by omega)]
    have harith : s + tw.length - s = tw.length := by omega
    rw [harith]
    exact (List.prefix_iff_eq_take.mp (htw ▸ List.takeWhile_prefix _)).symm

/-- The fueled outer loop with the remaining-entries count as fuel agrees
with the loop itself: one unit of fuel per iteration suffices because the
cursor strictly advances. -/
theorem aggLoopFuel_sound (entries : List SrtEntry) (W O : ℚ) :
    ∀ fuel s ci, entries.length - s ≤ fuel →
      aggLoopFuel entries W O fuel s ci = some (aggLoop entries W O s ci) := by
  intro fuel
  induction fuel with
  | zero =>
    intro s ci h
    have hs : ¬ s < entries.length := by omega
    rw [aggLoop, dif_neg hs]
    simp [aggLoopFuel, hs]
  | succ fuel ih =>
    intro s ci h
    by_cases hs : s < entries.length
    · have hnext := lt_nextCursorAt entries W O s
      rw [aggLoop, dif_pos hs]
      unfold aggLoopFuel
      rw [if_pos hs]
      simp only []
      split
      · exact ih _ _ (by omega)
      · rw [ih _ _ (by omega)]
        rfl
    · rw [aggLoop, dif_neg hs]
      unfold aggLoopFuel
      rw [if_neg hs]

theorem aggLoop_step_empty (entries : List SrtEntry) (W O : ℚ) (s ci : ℕ)
    (hs : s < entries.length)
    (htext : jsTrim (String.intercalate " "
      ((sliceAt entries W s).map (fun e => e.text))) = "") :
    aggLoop entries W O s ci =
      aggLoop entries W O (nextCursorAt entries W O s) ci := by
  rw [aggLoop, dif_pos hs]
  simp only []
  rw [if_pos htext]

theorem aggLoop_step_chunk (entries : List SrtEntry) (W O : ℚ) (s ci : ℕ)
    (hs : s < entries.length)
    (htext : jsTrim (String.intercalate " "
      ((sliceAt entries W s).map (fun e => e.text))) ≠ "") :
    aggLoop entries W O s ci =
      { chunkIndex := ci,
        start := ((sliceAt entries W s).headD default).start,
        «end» := ((sliceAt entries W s).getLastD default).«end»,
        startSeconds := ((sliceAt entries W s).headD default).startSeconds,
        endSeconds := ((sliceAt entries W s).getLastD default).endSeconds,
        text := jsTrim (String.intercalate " "
          ((sliceAt entries W s).map (fun e => e.text))) } ::
      aggLoop entries W O (nextCursorAt entries W O s) (ci + 1) := by
  rw [aggLoop, dif_pos hs]
  simp only []
  rw [if_neg htext]

theorem aggLoop_stop (entries : List SrtEntry) (W O : ℚ) (s ci : ℕ)
    (hs : ¬ s < entries.length) :
    aggLoop entries W O s ci = [] := by
  rw [aggLoop, dif_neg hs]

theorem aggregateEntries_eq_aggLoop (entries : List SrtEntry) (W O : ℚ) :
    aggregateEntries entries W O = aggLoop entries W O 0 0 := by
  unfold aggregateEntries
  by_cases he : entries.isEmpty
  · rw [if_pos he]
    cases entries with
    | nil => rw [aggLoop_stop _ _ _ _ _ (by simp)]
    | cons a t => exact absurd he (by simp [List.isEmpty])
  · rw [if_neg he]

theorem aggLoop_indices (entries : List SrtEntry) (W O : ℚ) :
    ∀ s ci, (aggLoop entries W O s ci).map (fun c => c.chunkIndex) =
      List.range' ci (aggLoop entries W O s ci).length := by
  intro s ci
  induction s, ci using aggLoop.induct entries W O with
  | case1 s ci hs _slice _text htext ih =>
    rw [aggLoop_step_empty entries W O s ci hs htext]
    exact ih
  | case2 s ci hs _slice _text htext ih =>
    rw [aggLoop_step_chunk entries W O s ci hs htext]
    simp only [List.map_cons, List.length_cons]
    rw [ih]
    rfl
  | case3 s ci hs =>
    rw [aggLoop_stop entries W O s ci hs]
    rfl

/-! ## Claim C4: aggregation terminates and chunk indices are dense -/

/-- C4: for every entry sequence (and any window and overlap), the outer
loop of aggregateEntries finishes within `entries.length` iterations —
the fueled loop with exactly that much fuel returns the same chunks
rather than running out — the cursor strictly increases on every
iteration, and the chunkIndex values of the emitted chunks are exactly
0..n−1 in increasing order with no repeats and no gaps. -/
theorem aggregateEntries_termination_density (entries : List SrtEntry) (W O : ℚ) :
    aggLoopFuel entries W O entries.length 0 0 = some (aggregateEntries entries W O) ∧
    (∀ s, s < nextCursorAt entries W O s) ∧
    (aggregateEntries entries W O).map (fun c => c.chunkIndex) =
      List.range (aggregateEntries entries W O).length := by
  refine ⟨?_, lt_nextCursorAt entries W O, ?_⟩
  · rw [aggregateEntries_eq_aggLoop]
    exact aggLoopFuel_sound entries W O entries.length 0 0 (by omega)
  · rw [aggregateEntries_eq_aggLoop, aggLoop_indices, List.range_eq_range']

theorem sliceAt_ne_nil (entries : List SrtEntry) (W : ℚ) (s : ℕ)
    (h : s < entries.length) : sliceAt entries W s ≠ [] := by
  rw [sliceAt_characterization entries W s h]
  split
  · simp
  · assumption

theorem sliceAt_subset (entries : List SrtEntry) (W : ℚ) (s : ℕ) :
    ∀ c ∈ sliceAt entries W s, c ∈ entries := by
  intro c hc
  simp only [sliceAt] at hc
  exact List.drop_subset s entries (List.take_subset _ _ hc)

theorem sliceAt_pairwise (entries : List SrtEntry) (W : ℚ) (s : ℕ)
    {R : SrtEntry → SrtEntry → Prop} (h : entries.Pairwise R) :
    (sliceAt entries W s).Pairwise R := by
  have hsub : List.Sublist (sliceAt entries W s) entries := by
    simp only [sliceAt]
    exact (List.take_sublist _ _).trans (List.drop_sublist _ _)
  exact List.Pairwise.sublist hsub h

theorem start_le_getLastD_end :
    ∀ (t : List SrtEntry) (a d : SrtEntry),
      (∀ e ∈ a :: t, e.startSeconds ≤ e.endSeconds) →
      (a :: t).Pairwise (fun x y => x.startSeconds ≤ y.startSeconds) →
      a.startSeconds ≤ ((a :: t).getLastD d).endSeconds := by
  intro t
  induction t with
  | nil =>
    intro a d h1 _
    exact h1 a (by simp)
  | cons b t ih =>
    intro a d h1 h2
    rw [List.pairwise_cons] at h2
    have hab : a.startSeconds ≤ b.startSeconds := h2.1 b (by simp)
    have hrec := ih b a (fun e he => h1 e (List.mem_cons_of_mem a he)) h2.2
    calc a.startSeconds ≤ b.startSeconds := hab
      _ ≤ ((b :: t).getLastD a).endSeconds := hrec
      _ = ((a :: b :: t).getLastD d).endSeconds := by
        conv_rhs => rw [List.getLastD_cons]

/-! ## Claim C6: the window boundary is inclusive -/

/-- C6: with W = 45 each chunk's included entries are the longest
consecutive run from the cursor whose entries end within 45 seconds of
the window start, boundary inclusive; one entry is forced when that run
is empty; and on entries ending at 40, 50 and 60 seconds with the window
starting at 0, the first emitted chunk holds exactly the 40-second
entry. -/
theorem aggregate_window_boundary (entries : List SrtEntry) (s : ℕ)
    (h : s < entries.length) :
    (sliceAt entries 45 s =
      (if (entries.drop s).takeWhile
          (fun e => decide (e.endSeconds - windowStartAt entries s ≤ 45)) = []
       then [entries.get ⟨s, h⟩]
       else (entries.drop s).takeWhile
          (fun e => decide (e.endSeconds - windowStartAt entries s ≤ 45)))) ∧
    (aggregateEntries
        [⟨"s1", "e1", 0, 40, "a"⟩, ⟨"s2", "e2", 40, 50, "b"⟩,
         ⟨"s3", "e3", 50, 60, "c"⟩] 45 10).head? =
      some ⟨0, "s1", "e1", 0, 40, "a"⟩ := by
  constructor
  · exact sliceAt_characterization entries 45 s h
  · have hfuel : aggLoopFuel
        [⟨"s1", "e1", 0, 40, "a"⟩, ⟨"s2", "e2", 40, 50, "b"⟩,
         ⟨"s3", "e3", 50, 60, "c"⟩] 45 10 3 0 0 =
        some [⟨0, "s1", "e1", 0, 40, "a"⟩, ⟨1, "s2", "e3", 40, 60, "b c"⟩,
          ⟨2, "s3", "e3", 50, 60, "c"⟩] := by
      with_unfolding_all decide
    have hsound := aggLoopFuel_sound
      [⟨"s1", "e1", 0, 40, "a"⟩, ⟨"s2", "e2", 40, 50, "b"⟩,
       ⟨"s3", "e3", 50, 60, "c"⟩] 45 10 3 0 0 (by decide)
    rw [hfuel] at hsound
    rw [aggregateEntries_eq_aggLoop, ← Option.some_inj.mp hsound]
    rfl

/-- C6 witness: the characterization applied at the scenario's entries
with the cursor at 0. -/
theorem aggregate_window_boundary_witness :
    (0 : ℕ) < ([⟨"s1", "e1", 0, 40, "a"⟩, ⟨"s2", "e2", 40, 50, "b"⟩,
      ⟨"s3", "e3", 50, 60, "c"⟩] : List SrtEntry).length ∧
    (sliceAt [⟨"s1", "e1", 0, 40, "a"⟩, ⟨"s2", "e2", 40, 50, "b"⟩,
        ⟨"s3", "e3", 50, 60, "c"⟩] 45 0 =
      (if (([⟨"s1", "e1", 0, 40, "a"⟩, ⟨"s2", "e2", 40, 50, "b"⟩,
          ⟨"s3", "e3", 50, 60, "c"⟩] : List SrtEntry).drop 0).takeWhile
          (fun e => decide (e.endSeconds - windowStartAt
            [⟨"s1", "e1", 0, 40, "a"⟩, ⟨"s2", "e2", 40, 50, "b"⟩,
             ⟨"s3", "e3", 50, 60, "c"⟩] 0 ≤ 45)) = []
       then [([⟨"s1", "e1", 0, 40, "a"⟩, ⟨"s2", "e2", 40, 50, "b"⟩,
          ⟨"s3", "e3", 50, 60, "c"⟩] : List SrtEntry).get ⟨0, by decide⟩]
       else (([⟨"s1", "e1", 0, 40, "a"⟩, ⟨"s2", "e2", 40, 50, "b"⟩,
          ⟨"s3", "e3", 50, 60, "c"⟩] : List SrtEntry).drop 0).takeWhile
          (fun e => decide (e.endSeconds - windowStartAt
            [⟨"s1", "e1", 0, 40, "a"⟩, ⟨"s2", "e2", 40, 50, "b"⟩,
             ⟨"s3", "e3", 50, 60, "c"⟩] 0 ≤ 45)))) ∧
    (aggregateEntries
        [⟨"s1", "e1", 0, 40, "a"⟩, ⟨"s2", "e2", 40, 50, "b"⟩,
         ⟨"s3", "e3", 50, 60, "c"⟩] 45 10).head? =
      some ⟨0, "s1", "e1", 0, 40, "a"⟩ := by
  refine ⟨by decide, ?_, ?_⟩
  · exact (aggregate_window_boundary _ 0 (by decide)).1
  · exact (aggregate_window_boundary
      [⟨"s1", "e1", 0, 40, "a"⟩, ⟨"s2", "e2", 40, 50, "b"⟩,
       ⟨"s3", "e3", 50, 60, "c"⟩] 0 (by decide)).2

/-! ## Claim C5: end at least start for entries and chunks -/

/-- C5 counterexample: parseSrt performs no ordering check on the two
timecodes of a block, so a block whose end timecode precedes its start
timecode yields an entry with endSeconds < startSeconds. -/
theorem parseSrt_entry_end_before_start :
    (parseSrt "1\n00:00:10,000 --> 00:00:05,000\nhi").map
      (fun e => (e.startSeconds, e.endSeconds)) = [((10 : ℚ), (5 : ℚ))] ∧
    ¬ ((5 : ℚ) ≥ 10) := by
  constructor
  · with_unfolding_all decide
  · with_unfolding_all decide

/-- C5 (amended): an entry's startSeconds and endSeconds are exactly the
seconds of its block's matched start and end timecodes — so the invariant
endSeconds ≥ startSeconds holds exactly for blocks whose timecodes are
ordered — and every chunk of aggregateEntries satisfies
endSeconds ≥ startSeconds whenever the input entries each do and are
sorted by startSeconds. -/
theorem entry_chunk_seconds_order :
    (∀ b e, parseBlock b = some e →
      ∃ rawStart rawEnd,
        timecodeMatch
          (if (timecodeMatch ((blockLines b).headD "")).isSome
           then (blockLines b).headD ""
           else ((blockLines b).drop 1).headD "") = some (rawStart, rawEnd) ∧
        e.startSeconds = timestampToSeconds rawStart ∧
        e.endSeconds = timestampToSeconds rawEnd) ∧
    (∀ (entries : List SrtEntry) (W O : ℚ),
      (∀ x ∈ entries, x.startSeconds ≤ x.endSeconds) →
      entries.Pairwise (fun a b => a.startSeconds ≤ b.startSeconds) →
      ∀ c ∈ aggregateEntries entries W O, c.startSeconds ≤ c.endSeconds) := by
  constructor
  · intro b e h
    simp only [parseBlock] at h
    split at h
    · exact absurd h (by simp)
    · split at h
      · exact absurd h (by simp)
      · rename_i rawStart rawEnd hm
        split at h
        · exact absurd h (by simp)
        · refine ⟨rawStart, rawEnd, hm, ?_, ?_⟩
          · rw [← Option.some_inj.mp h]
          · rw [← Option.some_inj.mp h]
  · intro entries W O h1 h2
    rw [aggregateEntries_eq_aggLoop]
    have main : ∀ s ci, ∀ c ∈ aggLoop entries W O s ci,
        c.startSeconds ≤ c.endSeconds := by
      intro s ci
      induction s, ci using aggLoop.induct entries W O with
      | case1 s ci hs _slice _text htext ih =>
        intro c hc
        rw [aggLoop_step_empty entries W O s ci hs htext] at hc
        exact ih c hc
      | case2 s ci hs _slice _text htext ih =>
        intro c hc
        rw [aggLoop_step_chunk entries W O s ci hs htext] at hc
        rcases List.mem_cons.mp hc with hcc | hcr
        · subst hcc
          cases hx : sliceAt entries W s with
          | nil => exact absurd hx (sliceAt_ne_nil entries W s hs)
          | cons a t =>
            have hsub : ∀ e ∈ a :: t, e.startSeconds ≤ e.endSeconds := by
              intro x hxmem
              exact h1 x (sliceAt_subset entries W s x (hx ▸ hxmem))
            have hpw : (a :: t).Pairwise
                (fun x y => x.startSeconds ≤ y.startSeconds) :=
              hx ▸ sliceAt_pairwise entries W s h2
            simp only [hx]
            exact start_le_getLastD_end t a default hsub hpw
        · exact ih c hcr
      | case3 s ci hs =>
        intro c hc
        rw [aggLoop_stop entries W O s ci hs] at hc
        exact absurd hc (List.not_mem_nil c)
    exact main 0 0

/-! ## Claims C7 and C10: entry normalization -/

theorem jsToLower_eq_empty_iff (s : String) : jsToLower s = "" ↔ s = "" := by
  constructor
  · intro h
    have hdata : (s.data.map Char.toLower) = [] := by
      have h2 := congrArg String.data h
      have h3 : ((s.data.map Char.toLower).asString).data = s.data.map Char.toLower := rfl
      rw [jsToLower, h3] at h2
      exact h2
    have : s.data = [] := List.map_eq_nil_iff.mp hdata
    cases s
    simp_all
  · intro h
    rw [h]
    rfl

theorem normalizeEntriesGo_eq_spec :
    ∀ (l : List SrtEntry) (t : String), t ≠ "" →
      normalizeEntriesGo l t = normalizeEntriesSpecGo l (some t) := by
  intro l
  induction l with
  | nil => intro t _; rfl
  | cons e rest ih =>
    intro t ht
    simp only [normalizeEntriesGo, normalizeEntriesSpecGo]
    by_cases hc : normalizeText e.text = ""
    · rw [if_pos hc, if_pos hc]
      exact ih t ht
    · rw [if_neg hc, if_neg hc]
      by_cases hd : jsToLower (normalizeText e.text) = t
      · rw [if_pos hd, if_pos (by rw [hd])]
        exact ih t ht
      · rw [if_neg hd, if_neg (by simpa using hd)]
        have hne : jsToLower (normalizeText e.text) ≠ "" := by
          intro hx
          exact hc ((jsToLower_eq_empty_iff _).mp hx)
        rw [ih _ hne]

theorem normalizeEntries_eq_spec (entries : List SrtEntry) :
    normalizeEntries entries = normalizeEntriesSpec entries := by
  unfold normalizeEntries normalizeEntriesSpec
  induction entries with
  | nil => rfl
  | cons e rest ih =>
    simp only [normalizeEntriesGo, normalizeEntriesSpecGo]
    by_cases hc : normalizeText e.text = ""
    · rw [if_pos hc, if_pos hc]
      exact ih
    · rw [if_neg hc, if_neg hc]
      have hne : jsToLower (normalizeText e.text) ≠ "" := by
        intro hx
        exact hc ((jsToLower_eq_empty_iff _).mp hx)
      rw [if_neg hne, if_neg (by simp)]
      rw [normalizeEntriesGo_eq_spec rest _ hne]

theorem normalizeEntriesGo_text_ne :
    ∀ (l : List SrtEntry) (t : String), ∀ e ∈ normalizeEntriesGo l t, e.text ≠ "" := by
  intro l
  induction l with
  | nil => intro t e he; exact absurd he (List.not_mem_nil e)
  | cons x rest ih =>
    intro t e he
    simp only [normalizeEntriesGo] at he
    by_cases hc : normalizeText x.text = ""
    · rw [if_pos hc] at he
      exact ih t e he
    · rw [if_neg hc] at he
      by_cases hd : jsToLower (normalizeText x.text) = t
      · rw [if_pos hd] at he
        exact ih t e he
      · rw [if_neg hd] at he
        rcases List.mem_cons.mp he with h | h
        · rw [h]
          exact hc
        · exact ih _ e h

theorem normalizeEntriesGo_head_ne :
    ∀ (l : List SrtEntry) (t : String) (e : SrtEntry),
      (normalizeEntriesGo l t).head? = some e → jsToLower e.text ≠ t := by
  intro l
  induction l with
  | nil => intro t e he; exact absurd he (by simp [normalizeEntriesGo])
  | cons x rest ih =>
    intro t e he
    simp only [normalizeEntriesGo] at he
    by_cases hc : normalizeText x.text = ""
    · rw [if_pos hc] at he
      exact ih t e he
    · rw [if_neg hc] at he
      by_cases hd : jsToLower (normalizeText x.text) = t
      · rw [if_pos hd] at he
        exact ih t e he
      · rw [if_neg hd] at he
        have : e = { x with text := normalizeText x.text } :=
          Eq.symm (by simpa using he)
        rw [this]
        exact hd

theorem normalizeEntriesGo_chain :
    ∀ (l : List SrtEntry) (t : String),
      (normalizeEntriesGo l t).Chain'
        (fun a b => jsToLower a.text ≠ jsToLower b.text) := by
  intro l
  induction l with
  | nil => intro t; exact List.chain'_nil
  | cons x rest ih =>
    intro t
    simp only [normalizeEntriesGo]
    by_cases hc : normalizeText x.text = ""
    · rw [if_pos hc]
      exact ih t
    · rw [if_neg hc]
      by_cases hd : jsToLower (normalizeText x.text) = t
      · rw [if_pos hd]
        exact ih t
      · rw [if_neg hd]
        rw [List.chain'_cons']
        refine ⟨?_, ih _⟩
        intro b hb
        have hbne := normalizeEntriesGo_head_ne rest _ b hb
        exact Ne.symm hbne

/-- C7: normalizeEntries follows the spec's drop rule exactly — an entry
is dropped precisely when its normalized text is empty or its case-folded
normalized text equals that of the immediately preceding kept entry
(`normalizeEntriesSpec` is that rule transcribed from the spec) — the
output carries only nonempty normalized texts, and no two consecutive
output entries are case-insensitively equal; equal non-adjacent texts
survive since the rule consults only the last kept entry. -/
theorem normalizeEntries_dedup_spec (entries : List SrtEntry) :
    normalizeEntries entries = normalizeEntriesSpec entries ∧
    (∀ e ∈ normalizeEntries entries, e.text ≠ "") ∧
    (normalizeEntries entries).Chain'
      (fun a b => jsToLower a.text ≠ jsToLower b.text) := by
  refine ⟨normalizeEntries_eq_spec entries, ?_, ?_⟩
  · exact normalizeEntriesGo_text_ne entries ""
  · exact normalizeEntriesGo_chain entries ""

/-- C10 helper: the loop's output is a subsequence of the text-rewritten
input, whatever the carried last-kept text is. -/
theorem normalizeEntriesGo_sublist :
    ∀ (l : List SrtEntry) (t : String),
      List.Sublist (normalizeEntriesGo l t)
        (l.map (fun e => { e with text := normalizeText e.text })) := by
  intro l
  induction l with
  | nil => intro t; exact List.Sublist.refl []
  | cons x rest ih =>
    intro t
    simp only [normalizeEntriesGo, List.map_cons]
    by_cases hc : normalizeText x.text = ""
    · rw [if_pos hc]
      exact (ih t).cons _
    · rw [if_neg hc]
      by_cases hd : jsToLower (normalizeText x.text) = t
      · rw [if_pos hd]
        exact (ih t).cons _
      · rw [if_neg hd]
        exact (ih _).cons₂ _

/-- C10: normalizeEntries never alters timing or order — its output is a
subsequence of the input in the original order, and every kept entry
keeps its start, end, startSeconds and endSeconds, only the text being
rewritten to its normalized form. -/
theorem normalizeEntries_frame (entries : List SrtEntry) :
    List.Sublist (normalizeEntries entries)
      (entries.map (fun e => { e with text := normalizeText e.text })) ∧
    (∀ o ∈ normalizeEntries entries, ∃ e ∈ entries,
      o.start = e.start ∧ o.«end» = e.«end» ∧
      o.startSeconds = e.startSeconds ∧ o.endSeconds = e.endSeconds ∧
      o.text = normalizeText e.text) := by
  refine ⟨normalizeEntriesGo_sublist entries "", ?_⟩
  intro o ho
  have hmem := (normalizeEntriesGo_sublist entries "").subset ho
  obtain ⟨e, he, heq⟩ := List.mem_map.mp hmem
  refine ⟨e, he, ?_, ?_, ?_, ?_, ?_⟩ <;> rw [← heq]

/-! ## Claim C2: the reranker fails open -/

/-- C2 (amended): rerankChunks returns its input list unchanged and
propagates no error whenever the scoring call throws, its response text
holds no bracketed segment, JSON.parse fails on that segment, the parsed
value is not an array, or the parsed array is strictly shorter than the
candidate list. A longer array does not trigger the fallback — the
source compares lengths with `<` only — see the counterexample. -/
theorem rerankChunks_fail_open (chunks : List RetrievedChunk)
    (outcome : Except Unit String)
    (h : (∃ u, outcome = Except.error u) ∨
      (∃ t, outcome = Except.ok t ∧
        (bracketSlice t = none ∨
          (∃ m, bracketSlice t = some m ∧
            (jsonParse m = none ∨
              (∃ v, jsonParse m = some v ∧ ∀ l, v ≠ JsValue.arr l) ∨
              (∃ l, jsonParse m = some (JsValue.arr l) ∧
                l.length < chunks.length)))))) :
    rerankChunks outcome chunks = chunks := by
  unfold rerankChunks
  by_cases hlen : chunks.length = 0
  · rw [if_pos hlen]
  · rw [if_neg hlen]
    rcases h with ⟨u, rfl⟩ | ⟨t, rfl, hrest⟩
    · rfl
    · rcases hrest with hb | ⟨m, hm, hrest⟩
      · simp only [hb]
      · simp only [hm]
        rcases hrest with hj | ⟨v, hv, hnotarr⟩ | ⟨l, hl, hlt⟩
        · simp only [hj]
        · cases v with
          | null => simp only [hv]
          | bool b => simp only [hv]
          | num q => simp only [hv]
          | str s => simp only [hv]
          | obj o => simp only [hv]
          | arr l => exact absurd rfl (hnotarr l)
        · simp only [hl, List.length_map]
          rw [if_pos hlt]

/-- C2 counterexample: with two candidates and the response "[0, 5, 3]"
the parsed array's length (3) differs from the candidate count (2), yet
rerankChunks does not return its input — it reorders the two candidates
by the first two scores. -/
theorem rerankChunks_longer_array_reranks :
    jsonParse "[0, 5, 3]" =
      some (JsValue.arr [JsValue.num 0, JsValue.num 5, JsValue.num 3]) ∧
    rerankChunks (Except.ok "[0, 5, 3]")
      [sampleA, sampleB] =
      [sampleB, sampleA] := by
  constructor
  · with_unfolding_all rfl
  · with_unfolding_all decide

/-- C2 witness: the fallback applied to a thrown scoring call with a
single candidate. -/
theorem rerankChunks_fail_open_witness :
    (∃ u, (Except.error () : Except Unit String) = Except.error u) ∧
    rerankChunks (Except.error ()) [sampleA] =
      [sampleA] :=
  ⟨⟨(), rfl⟩, rerankChunks_fail_open [sampleA] (Except.error ())
    (Or.inl ⟨(), rfl⟩)⟩

/-! ## Claim C3: reciprocal rank fusion -/

/-- Map.prototype.get on the score map. -/
def mapLookup (k : ℕ) : List (ℕ × ℚ × RetrievedChunk) → Option (ℚ × RetrievedChunk)
  | [] => none
  | (k0, s, c) :: rest => if k0 = k then some (s, c) else mapLookup k rest

/-- The fused score the map holds for a key. -/
def scoreOf (k : ℕ) (m : List (ℕ × ℚ × RetrievedChunk)) : Option ℚ :=
  (mapLookup k m).map (fun p => p.1)

/-- addList with the running rank made explicit: the element at list
position j is added at rank r + j + 1. -/
def addListFrom (m : List (ℕ × ℚ × RetrievedChunk)) :
    List RetrievedChunk → ℕ → List (ℕ × ℚ × RetrievedChunk)
  | [], _ => m
  | c :: cs, r =>
    addListFrom (mapAdd m c.id (1 / (RRF_K + ((r : ℚ) + 1))) c) cs (r + 1)

/-- The single reciprocal-rank contribution of one list to one chunk
identity, in the claim's words: 1 / (60 + rank) at the 1-based rank of
the identity in the list, 0 when absent. -/
def rankTerm (list : List RetrievedChunk) (k : ℕ) : ℚ :=
  match list.findIdx? (fun c => c.id == k) with
  | some i => 1 / (RRF_K + ((i : ℚ) + 1))
  | none => 0

theorem addList_eq_addListFrom (m : List (ℕ × ℚ × RetrievedChunk))
    (list : List RetrievedChunk) : addList m list = addListFrom m list 0 := by
  have aux : ∀ (l : List RetrievedChunk) (r : ℕ) (m),
      (l.enumFrom r).foldl
        (fun acc p => mapAdd acc p.2.id (1 / (RRF_K + ((p.1 : ℚ) + 1))) p.2) m =
        addListFrom m l r := by
    intro l
    induction l with
    | nil => intro r m; rfl
    | cons c cs ih =>
      intro r m
      simp only [List.enumFrom_cons, List.foldl_cons, addListFrom]
      exact ih (r + 1) _
  unfold addList
  rw [show (list.enum) = list.enumFrom 0 from rfl]
  exact aux list 0 m

theorem mapLookup_mapAdd (m : List (ℕ × ℚ × RetrievedChunk)) (k k' : ℕ)
    (d : ℚ) (c : RetrievedChunk) :
    mapLookup k (mapAdd m k' d c) =
      if k = k' then
        (match mapLookup k m with
         | some p => some (p.1 + d, p.2)
         | none => some (d, c))
      else mapLookup k m := by
  induction m with
  | nil =>
    by_cases h : k = k'
    · simp [mapAdd, mapLookup, h]
    · have h2 : ¬ k' = k := Ne.symm h
      simp [mapAdd, mapLookup, h, h2]
  | cons hd rest ih =>
    obtain ⟨k0, s0, c0⟩ := hd
    by_cases h0 : k0 = k'
    · by_cases hk : k = k0
      · have hkk : k = k' := hk.trans h0
        have h2 : k0 = k := Eq.symm hk
        simp only [mapAdd, if_pos h0, mapLookup, if_pos h2, if_pos hkk]
      · have h2 : ¬ k0 = k := Ne.symm hk
        have h3 : ¬ k = k' := fun hx => hk (hx.trans h0.symm)
        simp [mapAdd, if_pos h0, mapLookup, h2, h3]
    · by_cases hk : k = k0
      · have h2 : k0 = k := Eq.symm hk
        have h3 : ¬ k = k' := fun hx => h0 (h2.symm ▸ hx)
        simp only [mapAdd, if_neg h0, mapLookup, if_pos h2, if_neg h3]
      · have h2 : ¬ k0 = k := Ne.symm hk
        simp only [mapAdd, if_neg h0, mapLookup, if_neg h2]
        exact ih

theorem keys_mapAdd (m : List (ℕ × ℚ × RetrievedChunk)) (k' : ℕ) (d : ℚ)
    (c : RetrievedChunk) :
    (mapAdd m k' d c).map (fun e => e.1) =
      if (mapLookup k' m).isSome then m.map (fun e => e.1)
      else m.map (fun e => e.1) ++ [k'] := by
  induction m with
  | nil => simp [mapAdd, mapLookup]
  | cons hd rest ih =>
    obtain ⟨k0, s0, c0⟩ := hd
    by_cases h0 : k0 = k'
    · subst h0
      simp [mapAdd, mapLookup]
    · have hne : ¬ k0 = k' := h0
      simp only [mapAdd, if_neg h0, mapLookup, List.map_cons, ih]
      by_cases hs : (mapLookup k' rest).isSome
      · simp [hs]
      · simp [hs]

theorem mem_mapAdd_id (m : List (ℕ × ℚ × RetrievedChunk)) (k' : ℕ) (d : ℚ)
    (c : RetrievedChunk) (hm : ∀ e ∈ m, (e.2.2).id = e.1) (hc : c.id = k') :
    ∀ e ∈ mapAdd m k' d c, (e.2.2).id = e.1 := by
  induction m with
  | nil =>
    intro e he
    simp only [mapAdd, List.mem_singleton] at he
    rw [he]
    exact hc
  | cons hd rest ih =>
    obtain ⟨k0, s0, c0⟩ := hd
    intro e he
    by_cases h0 : k0 = k'
    · simp only [mapAdd, if_pos h0] at he
      rcases List.mem_cons.mp he with h | h
      · rw [h]
        exact hm (k0, s0, c0) (by simp)
      · exact hm e (List.mem_cons_of_mem _ h)
    · simp only [mapAdd, if_neg h0] at he
      rcases List.mem_cons.mp he with h | h
      · rw [h]
        exact hm (k0, s0, c0) (by simp)
      · exact ih (fun x hx => hm x (List.mem_cons_of_mem _ hx)) e h

theorem findIdx?_none_of_all {α : Type} (p : α → Bool) :
    ∀ (l : List α) (r : ℕ), (∀ x ∈ l, p x = false) → l.findIdx? p r = none := by
  intro l
  induction l with
  | nil => intro r _; rfl
  | cons x xs ih =>
    intro r h
    rw [List.findIdx?_cons, if_neg (by simp [h x (by simp)])]
    exact ih (r + 1) (fun y hy => h y (List.mem_cons_of_mem _ hy))

theorem mapLookup_isSome_iff (k : ℕ) :
    ∀ (m : List (ℕ × ℚ × RetrievedChunk)),
      (mapLookup k m).isSome = true ↔ k ∈ m.map (fun e => e.1) := by
  intro m
  induction m with
  | nil => simp [mapLookup]
  | cons hd rest ih =>
    obtain ⟨k0, s0, c0⟩ := hd
    by_cases h0 : k0 = k
    · simp [mapLookup, h0]
    · have h2 : ¬ k = k0 := Ne.symm h0
      simp [mapLookup, h0, h2, ih]

theorem mapLookup_of_mem :
    ∀ (m : List (ℕ × ℚ × RetrievedChunk)),
      (m.map (fun e => e.1)).Nodup →
      ∀ k s c, (k, s, c) ∈ m → mapLookup k m = some (s, c) := by
  intro m
  induction m with
  | nil =>
    intro _ k s c hmem
    exact absurd hmem (List.not_mem_nil _)
  | cons hd rest ih =>
    intro hnodup k s c hmem
    obtain ⟨k0, s0, c0⟩ := hd
    rw [List.map_cons, List.nodup_cons] at hnodup
    rcases List.mem_cons.mp hmem with h | h
    · rw [← h]
      simp [mapLookup]
    · have hk0 : k0 ≠ k := by
        intro hx
        subst hx
        exact hnodup.1 (List.mem_map.mpr ⟨(k0, s, c), h, rfl⟩)
      simp only [mapLookup, if_neg hk0]
      exact ih hnodup.2 k s c h

theorem scoreOf_addListFrom (k : ℕ) :
    ∀ (list : List RetrievedChunk) (r : ℕ) (m : List (ℕ × ℚ × RetrievedChunk)),
      (list.map (fun c => c.id)).Nodup →
      scoreOf k (addListFrom m list r) =
        match list.findIdx? (fun c => c.id == k) r with
        | some i => some ((scoreOf k m).getD 0 + 1 / (RRF_K + ((i : ℚ) + 1)))
        | none => scoreOf k m := by
  intro list
  induction list with
  | nil => intro r m _; rfl
  | cons c cs ih =>
    intro r m hnodup
    rw [List.map_cons, List.nodup_cons] at hnodup
    simp only [addListFrom, List.findIdx?_cons]
    by_cases hc : c.id = k
    · rw [if_pos (by simp [hc])]
      have hnone : cs.findIdx? (fun x => x.id == k) (r + 1) = none := by
        refine findIdx?_none_of_all _ cs (r + 1) ?_
        intro x hx
        simp only [beq_eq_false_iff_ne, ne_eq]
        intro hxk
        exact hnodup.1 (List.mem_map.mpr ⟨x, hx, by rw [hxk, hc]⟩)
      rw [ih (r + 1) _ hnodup.2, hnone]
      have hkc : k = c.id := hc.symm
      have hgoal : scoreOf k (mapAdd m c.id (1 / (RRF_K + ((r : ℚ) + 1))) c) =
          some ((scoreOf k m).getD 0 + 1 / (RRF_K + ((r : ℚ) + 1))) := by
        unfold scoreOf
        rw [mapLookup_mapAdd m k c.id _ c, if_pos hkc]
        cases hm : mapLookup k m with
        | none => simp
        | some p => simp
      rw [hgoal]
    · rw [if_neg (by simp [hc])]
      rw [ih (r + 1) _ hnodup.2]
      have hside : scoreOf k (mapAdd m c.id (1 / (RRF_K + ((r : ℚ) + 1))) c) =
          scoreOf k m := by
        have hne : ¬ k = c.id := fun hx => hc hx.symm
        simp [scoreOf, mapLookup_mapAdd, hne]
      rw [hside]

theorem keys_addListFrom :
    ∀ (list : List RetrievedChunk) (r : ℕ) (m : List (ℕ × ℚ × RetrievedChunk)),
      (list.map (fun c => c.id)).Nodup →
      (addListFrom m list r).map (fun e => e.1) =
        m.map (fun e => e.1) ++
          (list.map (fun c => c.id)).filter
            (fun k => decide (k ∉ m.map (fun e => e.1))) := by
  intro list
  induction list with
  | nil => intro r m _; simp [addListFrom]
  | cons c cs ih =>
    intro r m hnodup
    rw [List.map_cons, List.nodup_cons] at hnodup
    simp only [addListFrom, List.map_cons, List.filter_cons]
    by_cases hmem : c.id ∈ m.map (fun e => e.1)
    · rw [ih (r + 1) _ hnodup.2]
      have hkeys : (mapAdd m c.id (1 / (RRF_K + ((r : ℚ) + 1))) c).map
          (fun e => e.1) = m.map (fun e => e.1) := by
        rw [keys_mapAdd,
          if_pos (((mapLookup_isSome_iff c.id m).mpr hmem))]
      rw [hkeys]
      rw [if_neg (by simpa using hmem)]
    · rw [ih (r + 1) _ hnodup.2]
      have hkeys : (mapAdd m c.id (1 / (RRF_K + ((r : ℚ) + 1))) c).map
          (fun e => e.1) = m.map (fun e => e.1) ++ [c.id] := by
        rw [keys_mapAdd, if_neg]
        intro hx
        exact hmem ((mapLookup_isSome_iff c.id m).mp hx)
      rw [hkeys]
      rw [if_pos (by simpa using hmem)]
      have hfilter : (cs.map (fun c => c.id)).filter
          (fun k => decide (k ∉ m.map (fun e => e.1) ++ [c.id])) =
          (cs.map (fun c => c.id)).filter
          (fun k => decide (k ∉ m.map (fun e => e.1))) := by
        refine List.filter_congr ?_
        intro x hx
        have hxne : x ≠ c.id := by
          intro hxeq
          exact hnodup.1 (hxeq ▸ hx)
        simp [List.mem_append, hxne]
      rw [hfilter]
      simp

theorem mem_addListFrom_id :
    ∀ (list : List RetrievedChunk) (r : ℕ) (m : List (ℕ × ℚ × RetrievedChunk)),
      (∀ e ∈ m, (e.2.2).id = e.1) →
      ∀ e ∈ addListFrom m list r, (e.2.2).id = e.1 := by
  intro list
  induction list with
  | nil => intro r m hm e he; exact hm e he
  | cons c cs ih =>
    intro r m hm e he
    simp only [addListFrom] at he
    exact ih (r + 1) _ (mem_mapAdd_id m c.id _ c hm rfl) e he

theorem rrfScores_eq (vec bm : List RetrievedChunk) :
    rrfScores vec bm = addListFrom (addListFrom [] vec 0) bm 0 := by
  unfold rrfScores
  rw [addList_eq_addListFrom, addList_eq_addListFrom]

theorem keys_rrfScores (vec bm : List RetrievedChunk)
    (hv : (vec.map (fun c => c.id)).Nodup) (hb : (bm.map (fun c => c.id)).Nodup) :
    (rrfScores vec bm).map (fun e => e.1) =
      vec.map (fun c => c.id) ++
        (bm.map (fun c => c.id)).filter
          (fun k => decide (k ∉ vec.map (fun c => c.id))) := by
  rw [rrfScores_eq, keys_addListFrom bm 0 _ hb, keys_addListFrom vec 0 [] hv]
  simp

theorem rrfScores_keys_nodup (vec bm : List RetrievedChunk)
    (hv : (vec.map (fun c => c.id)).Nodup) (hb : (bm.map (fun c => c.id)).Nodup) :
    ((rrfScores vec bm).map (fun e => e.1)).Nodup := by
  rw [keys_rrfScores vec bm hv hb]
  refine List.Nodup.append hv (hb.filter _) ?_
  intro a ha hafilter
  have hdec := List.of_mem_filter hafilter
  simp only [decide_eq_true_eq] at hdec
  exact hdec ha

theorem rrfScores_id (vec bm : List RetrievedChunk) :
    ∀ e ∈ rrfScores vec bm, (e.2.2).id = e.1 := by
  rw [rrfScores_eq]
  intro e he
  refine mem_addListFrom_id bm 0 _ ?_ e he
  refine mem_addListFrom_id vec 0 [] ?_
  intro x hx
  exact absurd hx (List.not_mem_nil x)

theorem rrfScores_entry (vec bm : List RetrievedChunk)
    (hv : (vec.map (fun c => c.id)).Nodup) (hb : (bm.map (fun c => c.id)).Nodup) :
    ∀ k s c, (k, s, c) ∈ rrfScores vec bm →
      s = rankTerm vec k + rankTerm bm k ∧ c.id = k := by
  intro k s c hmem
  refine ⟨?_, rrfScores_id vec bm (k, s, c) hmem⟩
  have hlook := mapLookup_of_mem _ (rrfScores_keys_nodup vec bm hv hb) k s c hmem
  have hscore : scoreOf k (rrfScores vec bm) = some s := by
    rw [scoreOf, hlook]
    rfl
  rw [rrfScores_eq] at hscore
  rw [scoreOf_addListFrom k bm 0 _ hb] at hscore
  rw [scoreOf_addListFrom k vec 0 [] hv] at hscore
  have hnil : scoreOf k ([] : List (ℕ × ℚ × RetrievedChunk)) = none := rfl
  rw [hnil] at hscore
  unfold rankTerm
  cases hfb : List.findIdx? (fun c => c.id == k) bm 0 with
  | none =>
    rw [hfb] at hscore
    cases hfv : List.findIdx? (fun c => c.id == k) vec 0 with
    | none =>
      rw [hfv] at hscore
      exact absurd hscore (by simp)
    | some i =>
      rw [hfv] at hscore
      simp only [Option.getD_none, Option.some_inj] at hscore
      exact hscore.symm.trans (by ring)
  | some j =>
    rw [hfb] at hscore
    cases hfv : List.findIdx? (fun c => c.id == k) vec 0 with
    | none =>
      rw [hfv] at hscore
      simp only [Option.getD_none, Option.some_inj] at hscore
      exact hscore.symm.trans (by ring)
    | some i =>
      rw [hfv] at hscore
      simp only [Option.getD_none, Option.getD_some, Option.some_inj] at hscore
      exact hscore.symm.trans (by ring)

/-- C3: rrfCombine's score map assigns each distinct chunk identity the
sum over the lists containing it of 1 / (60 + rank) at its 1-based rank
(`rankTerm`, phrased as the claim words it), keyed in first-seen order
across the two lists with the vector list first and deduplicated; the
returned chunks are that map sorted by descending fused score, ties kept
in first-seen order (the sort is a permutation, pairwise descending, and
leaves every equal-score class in map order), with each distinct chunk
id appearing exactly once. -/
theorem rrfCombine_spec (vectorMatches bm25Matches : List RetrievedChunk)
    (hv : (vectorMatches.map (fun c => c.id)).Nodup)
    (hb : (bm25Matches.map (fun c => c.id)).Nodup) :
    ((rrfScores vectorMatches bm25Matches).map (fun e => e.1) =
      vectorMatches.map (fun c => c.id) ++
        (bm25Matches.map (fun c => c.id)).filter
          (fun k => decide (k ∉ vectorMatches.map (fun c => c.id)))) ∧
    (∀ k s c, (k, s, c) ∈ rrfScores vectorMatches bm25Matches →
      s = rankTerm vectorMatches k + rankTerm bm25Matches k ∧ c.id = k) ∧
    List.Perm (sortLe scoreDescLe (rrfScores vectorMatches bm25Matches))
      (rrfScores vectorMatches bm25Matches) ∧
    (sortLe scoreDescLe (rrfScores vectorMatches bm25Matches)).Pairwise
      (fun a b => b.2.1 ≤ a.2.1) ∧
    (∀ q : ℚ,
      (sortLe scoreDescLe (rrfScores vectorMatches bm25Matches)).filter
        (fun e => decide (e.2.1 = q)) =
      (rrfScores vectorMatches bm25Matches).filter
        (fun e => decide (e.2.1 = q))) ∧
    rrfCombine vectorMatches bm25Matches =
      (sortLe scoreDescLe (rrfScores vectorMatches bm25Matches)).map
        (fun e => e.2.2) ∧
    ((rrfCombine vectorMatches bm25Matches).map (fun c => c.id)).Nodup := by
  have htot : ∀ a b : ℕ × ℚ × RetrievedChunk,
      scoreDescLe a b = true ∨ scoreDescLe b a = true := by
    intro a b
    simp only [scoreDescLe, decide_eq_true_eq]
    exact le_total b.2.1 a.2.1
  have htrans : ∀ a b c : ℕ × ℚ × RetrievedChunk,
      scoreDescLe a b = true → scoreDescLe b c = true → scoreDescLe a c = true := by
    intro a b c h1 h2
    simp only [scoreDescLe, decide_eq_true_eq] at h1 h2 ⊢
    exact le_trans h2 h1
  refine ⟨keys_rrfScores vectorMatches bm25Matches hv hb,
    rrfScores_entry vectorMatches bm25Matches hv hb,
    sortLe_perm scoreDescLe _, ?_, ?_, rfl, ?_⟩
  · have := sortLe_pairwise scoreDescLe htot htrans
      (rrfScores vectorMatches bm25Matches)
    refine this.imp ?_
    intro a b hab
    simpa [scoreDescLe] using hab
  · intro q
    refine sortLe_filter scoreDescLe htot htrans _ ?_ _
    intro a b ha hb2
    simp only [decide_eq_true_eq] at ha hb2
    simp [scoreDescLe, ha, hb2]
  · have hmapeq : (sortLe scoreDescLe (rrfScores vectorMatches bm25Matches)).map
        (fun e => e.2.2.id) =
        (sortLe scoreDescLe (rrfScores vectorMatches bm25Matches)).map
        (fun e => e.1) := by
      refine List.map_congr_left ?_
      intro e he
      exact rrfScores_id vectorMatches bm25Matches e
        ((sortLe_perm scoreDescLe _).mem_iff.mp he)
    have hperm : List.Perm
        ((sortLe scoreDescLe (rrfScores vectorMatches bm25Matches)).map
          (fun e => e.1))
        ((rrfScores vectorMatches bm25Matches).map (fun e => e.1)) :=
      (sortLe_perm scoreDescLe _).map _
    unfold rrfCombine
    rw [List.map_map]
    have hcomp : ((fun c : RetrievedChunk => c.id) ∘ (fun e : ℕ × ℚ × RetrievedChunk => e.2.2)) =
        (fun e : ℕ × ℚ × RetrievedChunk => e.2.2.id) := rfl
    rw [hcomp, hmapeq]
    exact hperm.nodup_iff.mpr (rrfScores_keys_nodup vectorMatches bm25Matches hv hb)

/-- C3 witness: the characterization applied to concrete vector and
lexical lists sharing one chunk identity. -/
theorem rrfCombine_spec_witness :
    ((([sampleA, sampleB] : List RetrievedChunk).map
        (fun c => c.id)).Nodup ∧
      (([sampleB, sampleC] : List RetrievedChunk).map
        (fun c => c.id)).Nodup) ∧
    (∀ k s c, (k, s, c) ∈ rrfScores [sampleA, sampleB]
        [sampleB, sampleC] →
      s = rankTerm [sampleA, sampleB] k +
        rankTerm [sampleB, sampleC] k ∧ c.id = k) ∧
    ((rrfCombine [sampleA, sampleB]
      [sampleB, sampleC]).map (fun c => c.id)).Nodup := by
  have h := rrfCombine_spec [sampleA, sampleB]
    [sampleB, sampleC] (by decide) (by decide)
  exact ⟨⟨by decide, by decide⟩, h.2.1, h.2.2.2.2.2.2⟩

/-! ## Claim C8: neighbor expansion -/

theorem uniqueByIdGo_subset :
    ∀ (l : List RetrievedChunk) (seen : List ℕ), ∀ c ∈ uniqueByIdGo l seen, c ∈ l := by
  intro l
  induction l with
  | nil => intro seen c hc; exact absurd hc (List.not_mem_nil c)
  | cons a rest ih =>
    intro seen c hc
    simp only [uniqueByIdGo] at hc
    by_cases h : a.id ∈ seen
    · rw [if_pos h] at hc
      exact List.mem_cons_of_mem a (ih seen c hc)
    · rw [if_neg h] at hc
      rcases List.mem_cons.mp hc with h2 | h2
      · exact h2 ▸ List.mem_cons_self a rest
      · exact List.mem_cons_of_mem a (ih _ c h2)

theorem uniqueByIdGo_nodup :
    ∀ (l : List RetrievedChunk) (seen : List ℕ),
      ((uniqueByIdGo l seen).map (fun c => c.id)).Nodup ∧
      (∀ k ∈ (uniqueByIdGo l seen).map (fun c => c.id), k ∉ seen) := by
  intro l
  induction l with
  | nil =>
    intro seen
    exact ⟨List.Pairwise.nil, fun k hk => absurd hk (List.not_mem_nil k)⟩
  | cons a rest ih =>
    intro seen
    simp only [uniqueByIdGo]
    by_cases h : a.id ∈ seen
    · rw [if_pos h]
      exact ih seen
    · rw [if_neg h]
      obtain ⟨ihn, ihs⟩ := ih (a.id :: seen)
      refine ⟨?_, ?_⟩
      · rw [List.map_cons, List.nodup_cons]
        refine ⟨?_, ihn⟩
        intro hmem
        exact ihs a.id hmem (List.mem_cons_self a.id seen)
      · intro k hk
        rw [List.map_cons] at hk
        rcases List.mem_cons.mp hk with h2 | h2
        · exact h2 ▸ h
        · intro hkseen
          exact ihs k h2 (List.mem_cons_of_mem _ hkseen)

theorem mem_uniqueByIdGo_of_prefix :
    ∀ (pre rest : List RetrievedChunk) (seen : List ℕ) (c : RetrievedChunk),
      c ∈ pre → (pre.map (fun c => c.id)).Nodup → c.id ∉ seen →
      c ∈ uniqueByIdGo (pre ++ rest) seen := by
  intro pre
  induction pre with
  | nil => intro rest seen c hc; exact absurd hc (List.not_mem_nil c)
  | cons a t ih =>
    intro rest seen c hc hnodup hseen
    rw [List.map_cons, List.nodup_cons] at hnodup
    simp only [List.cons_append, uniqueByIdGo]
    rcases List.mem_cons.mp hc with h | h
    · subst h
      rw [if_neg hseen]
      exact List.mem_cons_self c _
    · by_cases ha : a.id ∈ seen
      · rw [if_pos ha]
        exact ih rest seen c h hnodup.2 hseen
      · rw [if_neg ha]
        refine List.mem_cons_of_mem a (ih rest (a.id :: seen) c h hnodup.2 ?_)
        intro hx
        rcases List.mem_cons.mp hx with h2 | h2
        · exact hnodup.1 (h2 ▸ List.mem_map.mpr ⟨c, h, rfl⟩)
        · exact hseen h2

theorem mem_lessonMapSet :
    ∀ (m : List (String × List ℤ)) (k : String) (v : List ℤ),
      ∀ p ∈ lessonMapSet m k v, p = (k, v) ∨ p ∈ m := by
  intro m
  induction m with
  | nil => intro k v p hp; left; simpa [lessonMapSet] using hp
  | cons hd rest ih =>
    intro k v p hp
    obtain ⟨k0, v0⟩ := hd
    simp only [lessonMapSet] at hp
    by_cases h0 : k0 == k
    · rw [if_pos h0] at hp
      rcases List.mem_cons.mp hp with h | h
      · left
        rw [h]
        have : k0 = k := by simpa using h0
        rw [this]
      · right
        exact List.mem_cons_of_mem _ h
    · rw [if_neg h0] at hp
      rcases List.mem_cons.mp hp with h | h
      · right
        exact h ▸ List.mem_cons_self _ _
      · rcases ih k v p h with h2 | h2
        · exact Or.inl h2
        · exact Or.inr (List.mem_cons_of_mem _ h2)

theorem mem_lessonMapGet (m : List (String × List ℤ)) (k : String) (i : ℤ)
    (hi : i ∈ lessonMapGet m k) : ∃ p ∈ m, p.1 = k ∧ i ∈ p.2 := by
  unfold lessonMapGet at hi
  cases hf : m.find? (fun p => p.1 == k) with
  | none => rw [hf] at hi; exact absurd hi (List.not_mem_nil i)
  | some p =>
    rw [hf] at hi
    simp only [Option.map_some', Option.getD_some] at hi
    refine ⟨p, List.mem_of_find?_eq_some hf, ?_, hi⟩
    have := List.find?_some hf
    simpa using this

theorem mem_setAdd (s : List ℤ) (x i : ℤ) (hi : i ∈ setAdd s x) :
    i ∈ s ∨ i = x := by
  unfold setAdd at hi
  by_cases h : x ∈ s
  · rw [if_pos h] at hi
    exact Or.inl hi
  · rw [if_neg h] at hi
    rcases List.mem_append.mp hi with h2 | h2
    · exact Or.inl h2
    · exact Or.inr (by simpa using h2)

theorem mem_addNeighborsOf (s : List ℤ) (c : RetrievedChunk) (i : ℤ)
    (hi : i ∈ addNeighborsOf s c 1) :
    i ∈ s ∨ (0 ≤ i ∧ (i = c.chunkIndex + 1 ∨ i = c.chunkIndex - 1)) := by
  have hoff : offsetsFor 1 = [-1, 1] := by decide
  rw [addNeighborsOf, hoff] at hi
  simp only [List.foldl_cons, List.foldl_nil] at hi
  by_cases h1 : (0 : ℤ) ≤ c.chunkIndex + -1
  · rw [if_pos h1] at hi
    by_cases h2 : (0 : ℤ) ≤ c.chunkIndex + 1
    · rw [if_pos h2] at hi
      rcases mem_setAdd _ _ _ hi with h3 | h3
      · rcases mem_setAdd _ _ _ h3 with h4 | h4
        · exact Or.inl h4
        · exact Or.inr ⟨h4 ▸ h1, Or.inr (by omega)⟩
      · exact Or.inr ⟨h3 ▸ h2, Or.inl h3⟩
    · rw [if_neg h2] at hi
      rcases mem_setAdd _ _ _ hi with h3 | h3
      · exact Or.inl h3
      · exact Or.inr ⟨h3 ▸ h1, Or.inr (by omega)⟩
  · rw [if_neg h1] at hi
    by_cases h2 : (0 : ℤ) ≤ c.chunkIndex + 1
    · rw [if_pos h2] at hi
      rcases mem_setAdd _ _ _ hi with h3 | h3
      · exact Or.inl h3
      · exact Or.inr ⟨h3 ▸ h2, Or.inl h3⟩
    · rw [if_neg h2] at hi
      exact Or.inl hi

theorem collect_aux (P : String → ℤ → Prop) :
    ∀ (l : List RetrievedChunk) (m : List (String × List ℤ)),
      (∀ p ∈ m, ∀ i ∈ p.2, P p.1 i) →
      (∀ c ∈ l, ∀ i : ℤ, 0 ≤ i →
        (i = c.chunkIndex + 1 ∨ i = c.chunkIndex - 1) → P c.lessonName i) →
      ∀ p ∈ l.foldl
          (fun m c =>
            let m1 := if lessonMapHas m c.lessonName then m
              else m ++ [(c.lessonName, [])]
            lessonMapSet m1 c.lessonName
              (addNeighborsOf (lessonMapGet m1 c.lessonName) c 1)) m,
        ∀ i ∈ p.2, P p.1 i := by
  intro l
  induction l with
  | nil => intro m hm _ p hp; exact hm p hp
  | cons c cs ih =>
    intro m hm hl
    simp only [List.foldl_cons]
    refine ih _ ?_ (fun x hx => hl x (List.mem_cons_of_mem c hx))
    intro p hp i hi
    have hm1 : ∀ q ∈ (if lessonMapHas m c.lessonName then m
        else m ++ [(c.lessonName, [])]), ∀ j ∈ q.2, P q.1 j := by
      intro q hq j hj
      by_cases hhas : lessonMapHas m c.lessonName
      · rw [if_pos hhas] at hq
        exact hm q hq j hj
      · rw [if_neg hhas] at hq
        rcases List.mem_append.mp hq with h2 | h2
        · exact hm q h2 j hj
        · have : q = (c.lessonName, []) := by simpa using h2
          rw [this] at hj
          exact absurd hj (List.not_mem_nil j)
    rcases mem_lessonMapSet _ _ _ p hp with hpe | hpm
    · rw [hpe] at hi ⊢
      rcases mem_addNeighborsOf _ _ _ hi with hold | hnew
      · obtain ⟨q, hq, hqk, hqi⟩ := mem_lessonMapGet _ _ _ hold
        have := hm1 q hq i hqi
        rw [hqk] at this
        exact this
      · exact hl c (List.mem_cons_self c cs) i hnew.1 hnew.2
    · exact hm1 p hpm i hi

theorem collectNeighborIndexes_good (chunks : List RetrievedChunk) :
    ∀ p ∈ collectNeighborIndexes chunks 1, ∀ i ∈ p.2,
      ∃ s ∈ chunks, s.lessonName = p.1 ∧ 0 ≤ i ∧
        (i = s.chunkIndex + 1 ∨ i = s.chunkIndex - 1) := by
  have h := collect_aux
    (fun lesson i => ∃ s ∈ chunks, s.lessonName = lesson ∧ 0 ≤ i ∧
      (i = s.chunkIndex + 1 ∨ i = s.chunkIndex - 1))
    chunks []
    (fun p hp => absurd hp (List.not_mem_nil p))
    (fun c hc i h0 hoff => ⟨c, hc, rfl, h0, hoff⟩)
  exact h

theorem lessonIdxLe_total (a b : RetrievedChunk) :
    lessonIdxLe a b = true ∨ lessonIdxLe b a = true := by
  simp only [lessonIdxLe, decide_eq_true_eq]
  rcases lt_trichotomy a.lessonName b.lessonName with h | h | h
  · exact Or.inl (Or.inl h)
  · rcases le_total a.chunkIndex b.chunkIndex with hle | hle
    · exact Or.inl (Or.inr ⟨h, hle⟩)
    · exact Or.inr (Or.inr ⟨h.symm, hle⟩)
  · exact Or.inr (Or.inl h)

theorem lessonIdxLe_trans (a b c : RetrievedChunk) :
    lessonIdxLe a b = true → lessonIdxLe b c = true → lessonIdxLe a c = true := by
  simp only [lessonIdxLe, decide_eq_true_eq]
  intro h1 h2
  rcases h1 with h1 | ⟨h1e, h1i⟩
  · rcases h2 with h2 | ⟨h2e, _⟩
    · exact Or.inl (h1.trans h2)
    · exact Or.inl (by rw [← h2e]; exact h1)
  · rcases h2 with h2 | ⟨h2e, h2i⟩
    · exact Or.inl (by rw [h1e]; exact h2)
    · exact Or.inr ⟨h1e.trans h2e, le_trans h1i h2i⟩

theorem getChunksByLessonAndIndexes_sound (table : List ChunkRow)
    (lesson : String) (idxs : List ℤ) :
    ∀ c ∈ getChunksByLessonAndIndexes table lesson idxs,
      c.lessonName = lesson ∧ c.chunkIndex ∈ idxs := by
  intro c hc
  unfold getChunksByLessonAndIndexes at hc
  by_cases h0 : idxs.length = 0
  · rw [if_pos h0] at hc
    exact absurd hc (List.not_mem_nil c)
  · rw [if_neg h0] at hc
    obtain ⟨r, hr, hrc⟩ := List.mem_map.mp hc
    have hr2 := (sortLe_perm _ _).mem_iff.mp hr
    have hr3 := List.of_mem_filter hr2
    simp only [decide_eq_true_eq] at hr3
    rw [← hrc]
    exact hr3

/-- C8: neighbor expansion at radius 1 keeps every selected chunk, never
repeats a chunk identity, sorts the result by (lesson name, chunk index)
ascending, and every added chunk carries the lesson of some selected
chunk and a non-negative index at distance exactly 1 from that chunk's
index — for every chunks-table state, since the embedded
getChunksByLessonAndIndexes only returns rows of the requested lesson at
requested indexes. -/
theorem expandNeighbors_spec (table : List ChunkRow)
    (S : List RetrievedChunk)
    (hS : (S.map (fun c => c.id)).Nodup) :
    (∀ c ∈ S, c ∈ expandNeighbors table S 1) ∧
    ((expandNeighbors table S 1).map (fun c => c.id)).Nodup ∧
    (expandNeighbors table S 1).Pairwise (fun a b =>
      a.lessonName < b.lessonName ∨
        (a.lessonName = b.lessonName ∧ a.chunkIndex ≤ b.chunkIndex)) ∧
    (∀ c ∈ expandNeighbors table S 1, c ∉ S →
      ∃ s ∈ S, c.lessonName = s.lessonName ∧ 0 ≤ c.chunkIndex ∧
        (c.chunkIndex = s.chunkIndex + 1 ∨ c.chunkIndex = s.chunkIndex - 1)) := by
  by_cases hS0 : S = []
  · subst hS0
    have hout : expandNeighbors table [] 1 = [] := by
      unfold expandNeighbors
      rw [if_neg one_ne_zero]
      rfl
    rw [hout]
    refine ⟨fun c hc => absurd hc (List.not_mem_nil c), List.Pairwise.nil,
      List.Pairwise.nil, fun c hc => absurd hc (List.not_mem_nil c)⟩
  · have hemp : ¬ (List.isEmpty S = true) := by
      cases S with
      | nil => exact absurd rfl hS0
      | cons a t => simp
    have hout : expandNeighbors table S 1 =
        sortLe lessonIdxLe (uniqueById (S ++
          (((collectNeighborIndexes S 1).map
            (fun p => getChunksByLessonAndIndexes table p.1 p.2)).flatten))) := by
      unfold expandNeighbors
      rw [if_neg one_ne_zero, if_neg hemp]
      rfl
    rw [hout]
    refine ⟨?_, ?_, ?_, ?_⟩
    · intro c hc
      refine (sortLe_perm lessonIdxLe _).mem_iff.mpr ?_
      exact mem_uniqueByIdGo_of_prefix S _ [] c hc hS (List.not_mem_nil _)
    · have hperm := (sortLe_perm lessonIdxLe
        (uniqueById (S ++
          ((collectNeighborIndexes S 1).map
            (fun p => getChunksByLessonAndIndexes table p.1 p.2)).flatten))).map
        (fun c => c.id)
      exact hperm.nodup_iff.mpr (uniqueByIdGo_nodup _ []).1
    · have h := sortLe_pairwise lessonIdxLe lessonIdxLe_total lessonIdxLe_trans
        (uniqueById (S ++
          ((collectNeighborIndexes S 1).map
            (fun p => getChunksByLessonAndIndexes table p.1 p.2)).flatten))
      refine h.imp ?_
      intro a b hab
      simpa [lessonIdxLe] using hab
    · intro c hc hcS
      have hc2 := (sortLe_perm lessonIdxLe _).mem_iff.mp hc
      have hc3 := uniqueByIdGo_subset _ [] c hc2
      rcases List.mem_append.mp hc3 with h | h
      · exact absurd h hcS
      · obtain ⟨l, hl, hcl⟩ := List.mem_flatten.mp h
        obtain ⟨p, hp, hpl⟩ := List.mem_map.mp hl
        rw [← hpl] at hcl
        obtain ⟨hlesson, hidx⟩ :=
          getChunksByLessonAndIndexes_sound table p.1 p.2 c hcl
        obtain ⟨s, hs, hsl, h0, hoff⟩ :=
          collectNeighborIndexes_good S p hp c.chunkIndex hidx
        exact ⟨s, hs, by rw [hlesson, hsl], h0, hoff⟩

/-- C8 witness: the expansion applied to a one-chunk selection over the
empty chunks table. -/
theorem expandNeighbors_spec_witness :
    (([sampleA] : List RetrievedChunk).map (fun c => c.id)).Nodup ∧
    (∀ c ∈ ([sampleA] : List RetrievedChunk),
      c ∈ expandNeighbors [] [sampleA] 1) ∧
    ((expandNeighbors [] [sampleA] 1).map (fun c => c.id)).Nodup := by
  have h := expandNeighbors_spec [] [sampleA] (by decide)
  exact ⟨by decide, h.1, h.2.1⟩
